import Mathlib

/-!
# Verification of the warp-engine asynchronous job orchestration core

This file gives a shallow embedding, in Lean 4, of the parts of the
`warp-engine` repository that its specification makes claims about:

* `src/warpengine/storage/cache.py` — the JSON key-value persistence layer
  (`put_record` / `get_record`);
* `src/warpengine/metrics/text_stats.py` and `metrics/analysis.py` — word and
  sentence tokenization, syllable counting, readability scores and n-gram
  statistics;
* `src/warpengine/orchestrator/chain.py` — the three-stage
  plan → execute → refine pipeline driver `run_three_agent_workflow`;
* `src/warpengine/server/engine_service.py` — the job scheduler
  (`execute_command`, `_execute_job`) and the WebSocket update broadcaster
  (`broadcast_update`).

Pure functions of the Python source become Lean functions; the stateful
service code becomes explicit state passing; Python exceptions become
`Except`; `None`-able attributes become `Option`.  Floating-point arithmetic
of the metrics is modelled over `ℚ` (the claims checked about it concern
exact zero-guards and division safety, which the rational model captures
exactly).  Time stamps (`time.time()` / `perf_counter()`) are abstract
parameters.

Theorems named `cN...` settle claim `CN` of the specification.
-/

set_option autoImplicit false

namespace WarpEngine

/-! ## JSON values

Records persisted by the cache, and results produced by job handlers, are
JSON-representable Python values: string-keyed dicts, lists, strings, finite
numbers, booleans and `None`.  `Json` is their abstract syntax; a Python dict
is modelled by its (ordered) field list.
-/

inductive Json where
  | null : Json
  | bool (b : Bool) : Json
  | num (q : ℚ) : Json
  | str (s : String) : Json
  | arr (elems : List Json) : Json
  | obj (fields : List (String × Json)) : Json

/-! ## Storage cache (`storage/cache.py`)

The cache file holds one JSON object mapping job ids to records.  The
on-disk JSON text is written and re-read through Python's `json` module,
which is the identity on the abstract syntax; the store is therefore
modelled directly as the ordered association list of the cache object.
`put_record` performs `cache[job_id] = record` (Python dict assignment:
replace in place if the key exists, else append) followed by a rewrite of
the file; `get_record` is `read_cache().get(job_id)`.
-/

/-- A Python `dict` with string keys: an ordered association list, as
Python's `dict` keeps it. -/
def Store (V : Type) : Type := List (String × V)

/-- The cache object of `cache.py` maps job ids to JSON records. -/
def Cache : Type := Store Json

/-- The empty cache (`read_cache` of a missing or unparsable file). -/
def emptyCache : Cache := []

/-- Python `dict.__setitem__`: replace the value at an existing key in
place, otherwise append the binding at the end. -/
def dictSet {V : Type} (k : String) (v : V) : Store V → Store V
  | [] => [(k, v)]
  | (k', v') :: rest =>
      if k' = k then (k, v) :: rest else (k', v') :: dictSet k v rest

/-- Python `dict.get`: first binding of the key, if any. -/
def dictGet {V : Type} (k : String) : Store V → Option V
  | [] => none
  | (k', v') :: rest => if k' = k then some v' else dictGet k rest

/-- `put_record(job_id, record)`: read the cache, set the binding,
write it back. -/
def put_record {V : Type} (job_id : String) (record : V) (cache : Store V) :
    Store V :=
  dictSet job_id record cache

/-- `get_record(job_id)`: read the cache and look the id up. -/
def get_record {V : Type} (job_id : String) (cache : Store V) : Option V :=
  dictGet job_id cache

/-- Keys currently bound in the store. -/
def storeKeys {V : Type} (cache : Store V) : List String := cache.map Prod.fst

/-! ## Text statistics (`metrics/text_stats.py`)

`tokenize_words` models `re.finditer` of `[A-Za-z]+(?:'[A-Za-z]+)?` (maximal
munch, left to right) followed by `.lower()`; `tokenize_sentences` models
`re.split` of `[.!?]+\s+` followed by `strip()` and dropping empty parts.
Whitespace is modelled as ASCII whitespace (the characters matched by
Python's `\s` on ASCII text).  The floating-point scores are modelled
over `ℚ`.
-/

def isAsciiLetter (c : Char) : Bool :=
  ('A' ≤ c && c ≤ 'Z') || ('a' ≤ c && c ≤ 'z')

def isLowerAZ (c : Char) : Bool := 'a' ≤ c && c ≤ 'z'

def isPySpace (c : Char) : Bool :=
  c == ' ' || c == '\t' || c == '\n' || c == '\r' || c == '\x0b' || c == '\x0c'

def isSentencePunct (c : Char) : Bool := c == '.' || c == '!' || c == '?'

/-- The vowels of the syllable heuristic: `[aeiouy]`. -/
def isVowelY (c : Char) : Bool :=
  c == 'a' || c == 'e' || c == 'i' || c == 'o' || c == 'u' || c == 'y'

theorem length_dropWhile_le {α} (p : α → Bool) (l : List α) :
    (List.dropWhile p l).length ≤ l.length := by
  induction l with
  | nil => simp [List.dropWhile]
  | cons x xs ih =>
      simp only [List.dropWhile]
      cases p x <;> simp <;> omega

/-- Scanner for the word regex `[A-Za-z]+(?:'[A-Za-z]+)?`: at a letter,
take the maximal letter run, then optionally one apostrophe followed by a
second maximal letter run; elsewhere advance one character. -/
def tokenizeWordsAux : List Char → List (List Char)
  | [] => []
  | c :: cs =>
    if hc : isAsciiLetter c then
      let run1 := List.takeWhile isAsciiLetter (c :: cs)
      match hr : List.dropWhile isAsciiLetter (c :: cs) with
      | '\'' :: d :: tail =>
        if hd : isAsciiLetter d then
          (run1 ++ '\'' :: List.takeWhile isAsciiLetter (d :: tail)) ::
            tokenizeWordsAux (List.dropWhile isAsciiLetter (d :: tail))
        else run1 :: tokenizeWordsAux ('\'' :: d :: tail)
      | rest1 => run1 :: tokenizeWordsAux rest1
    else tokenizeWordsAux cs
termination_by l => l.length
decreasing_by
  · have h0 : List.dropWhile isAsciiLetter (c :: cs) =
        List.dropWhile isAsciiLetter cs := List.dropWhile_cons_of_pos hc
    have h1 : (List.dropWhile isAsciiLetter cs).length ≤ cs.length :=
      length_dropWhile_le _ _
    have h2 : List.dropWhile isAsciiLetter (d :: tail) =
        List.dropWhile isAsciiLetter tail := List.dropWhile_cons_of_pos hd
    have h3 : (List.dropWhile isAsciiLetter tail).length ≤ tail.length :=
      length_dropWhile_le _ _
    have h4 : (List.dropWhile isAsciiLetter cs).length = tail.length + 2 := by
      rw [← h0, hr]; simp
    simp only [h2, List.length_cons]
    omega
  · have h0 : List.dropWhile isAsciiLetter (c :: cs) =
        List.dropWhile isAsciiLetter cs := List.dropWhile_cons_of_pos hc
    have h1 : (List.dropWhile isAsciiLetter cs).length ≤ cs.length :=
      length_dropWhile_le _ _
    have h4 : (List.dropWhile isAsciiLetter cs).length = tail.length + 2 := by
      rw [← h0, hr]; simp
    simp only [List.length_cons]
    omega
  · have h0 : List.dropWhile isAsciiLetter (c :: cs) =
        List.dropWhile isAsciiLetter cs := List.dropWhile_cons_of_pos hc
    have h1 : (List.dropWhile isAsciiLetter cs).length ≤ cs.length :=
      length_dropWhile_le _ _
    have h4 : rest1.length = (List.dropWhile isAsciiLetter cs).length := by
      rw [← h0, hr]
    simp only [List.length_cons]
    omega
  · simp only [List.length_cons]; omega

/-- `tokenize_words`: regex matches, lower-cased. -/
def tokenize_words (text : String) : List String :=
  (tokenizeWordsAux text.toList).map (fun w => String.mk (w.map Char.toLower))

/-- Scanner for `re.split(r"[.!?]+\s+", text)`: a separator is a maximal
run of sentence punctuation immediately followed by at least one whitespace
character (greedy); a punctuation run not followed by whitespace belongs to
the current part.  `acc` holds the current part, reversed. -/
def splitSentsAux : List Char → List Char → List (List Char)
  | acc, [] => [acc.reverse]
  | acc, c :: cs =>
    if hc : isSentencePunct c then
      let seps := List.takeWhile isSentencePunct (c :: cs)
      let rest1 := List.dropWhile isSentencePunct (c :: cs)
      if List.takeWhile isPySpace rest1 = [] then
        splitSentsAux (seps.reverse ++ acc) rest1
      else
        acc.reverse :: splitSentsAux [] (List.dropWhile isPySpace rest1)
    else splitSentsAux (c :: acc) cs
termination_by _ l => l.length
decreasing_by
  · have h0 : List.dropWhile isSentencePunct (c :: cs) =
        List.dropWhile isSentencePunct cs := List.dropWhile_cons_of_pos hc
    have h1 : (List.dropWhile isSentencePunct cs).length ≤ cs.length :=
      length_dropWhile_le _ _
    simp only [h0, List.length_cons]
    omega
  · have h0 : List.dropWhile isSentencePunct (c :: cs) =
        List.dropWhile isSentencePunct cs := List.dropWhile_cons_of_pos hc
    have h1 : (List.dropWhile isSentencePunct cs).length ≤ cs.length :=
      length_dropWhile_le _ _
    have h2 : (List.dropWhile isPySpace (List.dropWhile isSentencePunct cs)).length ≤
        (List.dropWhile isSentencePunct cs).length := length_dropWhile_le _ _
    simp only [h0, List.length_cons]
    omega
  · simp only [List.length_cons]; omega

/-- Python `str.strip()` on ASCII whitespace. -/
def pyStrip (l : List Char) : List Char :=
  ((l.dropWhile isPySpace).reverse.dropWhile isPySpace).reverse

/-- `tokenize_sentences`: split on the separator regex, strip each part,
keep the non-empty ones. -/
def tokenize_sentences (text : String) : List String :=
  (((splitSentsAux [] text.toList).map pyStrip).filter (fun p => ¬ p.isEmpty)).map
    (fun p => String.mk p)

/-- The vowel-group loop of `count_syllables`: one unit for every vowel
whose predecessor is not a vowel (`prev_is_vowel` threaded through). -/
def vowelRunLoop : Bool → List Char → Nat
  | _, [] => 0
  | prev, c :: cs =>
      (if isVowelY c && !prev then 1 else 0) + vowelRunLoop (isVowelY c) cs

/-- `count_syllables`: lower-case, drop every character outside `a`–`z`,
count contiguous `[aeiouy]` groups, drop one for a trailing `e` when more
than one group was counted, floor at 1; empty (after stripping) gives 0.
`word.lower()` is modelled by per-character `Char.toLower`, which agrees
with Python's `str.lower()` exactly on ASCII strings; Unicode characters
whose lower case lands in `a`–`z` (e.g. U+212A KELVIN SIGN) are outside
the model, so the theorems about this function quantify over ASCII words
only.  (The tokenizers feed it ASCII-letter words exclusively, so the
readability metrics are unaffected.) -/
def count_syllables (word : String) : Nat :=
  let w0 := word.toList.map Char.toLower
  if w0.isEmpty then 0
  else
    let w := w0.filter isLowerAZ
    if w.isEmpty then 0
    else
      let count := vowelRunLoop false w
      let count' := if w.getLast? == some 'e' && decide (1 < count)
        then count - 1 else count
      max 1 count'

/-- `flesch_reading_ease` over `ℚ`:
`206.835 − 1.015·(words/sentences) − 84.6·(syllables/words)`, with the
zero-guard on empty word or sentence lists. -/
def flesch_reading_ease (text : String) : ℚ :=
  let words := tokenize_words text
  let sents := tokenize_sentences text
  if words.isEmpty || sents.isEmpty then 0
  else
    let word_count : ℚ := (words.length : ℚ)
    let sent_count : ℚ := ((max 1 sents.length : ℕ) : ℚ)
    let syllables : ℚ := (((words.map count_syllables).sum : ℕ) : ℚ)
    206835/1000 - 1015/1000 * (word_count / sent_count)
      - 846/10 * (syllables / word_count)

/-- `flesch_kincaid_grade` over `ℚ`:
`0.39·(words/sentences) + 11.8·(syllables/words) − 15.59`, same guard. -/
def flesch_kincaid_grade (text : String) : ℚ :=
  let words := tokenize_words text
  let sents := tokenize_sentences text
  if words.isEmpty || sents.isEmpty then 0
  else
    let word_count : ℚ := (words.length : ℚ)
    let sent_count : ℚ := ((max 1 sents.length : ℕ) : ℚ)
    let syllables : ℚ := (((words.map count_syllables).sum : ℕ) : ℚ)
    39/100 * (word_count / sent_count) + 118/10 * (syllables / word_count)
      - 1559/100

/-- The counts block of `basic_counts`. -/
structure Counts where
  chars : Nat
  words : Nat
  sentences : Nat
  unique_words : Nat
  deriving DecidableEq, Repr

/-- The number of distinct elements of a list (`len(set(words))`). -/
def distinctCount (l : List String) : Nat := l.dedup.length

def basic_counts (text : String) : Counts :=
  let words := tokenize_words text
  let sents := tokenize_sentences text
  { chars := text.length
    words := words.length
    sentences := sents.length
    unique_words := distinctCount words }

/-- `type_token_ratio`: unique words over words, 0 when there are none. -/
def type_token_ratio (text : String) : ℚ :=
  let words := tokenize_words text
  if words.isEmpty then 0
  else ((distinctCount words : ℚ)) / ((words.length : ℚ))

/-! ## Top n-grams (`text_stats.top_ngrams`)

`Counter(ngrams)` is a dict keyed in first-insertion order; it is modelled
as an association list built by a left fold.  `most_common(k)` is
`heapq.nlargest(k, items, key=count)`, documented and implemented as
equivalent to `sorted(items, key=count, reverse=True)[:k]` — a stable
descending sort by count (ties keep dict order, i.e. first-occurrence
order) cut to `k`.  Stability is modelled by an insertion sort that keeps
an earlier element before a later one whenever their counts are equal.
-/

/-- One `Counter` update: bump the existing entry in place, or append a
fresh entry with count 1. -/
def counterIncr (g : String) : List (String × Nat) → List (String × Nat)
  | [] => [(g, 1)]
  | (k, c) :: rest =>
      if k = g then (k, c + 1) :: rest else (k, c) :: counterIncr g rest

/-- `Counter(l)`: fold the updates left to right. -/
def counterOf (l : List String) : List (String × Nat) :=
  l.foldl (fun acc g => counterIncr g acc) []

/-- Insert `x` before the first `y` with `le x y`; used with a total
preorder `le`, inserting an earlier element into the sorted list of later
ones, this is a stable sort. -/
def insertBy {α : Type} (le : α → α → Bool) (x : α) : List α → List α
  | [] => [x]
  | y :: ys => if le x y then x :: y :: ys else y :: insertBy le x ys

/-- Stable insertion sort. -/
def sortBy {α : Type} (le : α → α → Bool) : List α → List α
  | [] => []
  | x :: xs => insertBy le x (sortBy le xs)

/-- `Counter.most_common(k)`: stable descending sort by count, first `k`. -/
def most_common (items : List (String × Nat)) (k : Nat) : List (String × Nat) :=
  (sortBy (fun a b => b.2 ≤ a.2) items).take k

/-- `" ".join(ws)`. -/
def joinWords (ws : List String) : String := String.intercalate " " ws

/-- The contiguous word `n`-grams `words[i:i+n]`, joined by spaces. -/
def ngramsOf (words : List String) (n : Nat) : List String :=
  (List.range (words.length - n + 1)).map (fun i => joinWords ((words.drop i).take n))

/-- `top_ngrams`: empty when there are fewer than `n` words, otherwise the
`top_k` most common `n`-grams. -/
def top_ngrams (text : String) (n top_k : Nat) : List (String × Nat) :=
  let words := tokenize_words text
  if words.length < n then []
  else most_common (counterOf (ngramsOf words n)) top_k

/-- The distinct elements of a list in order of first occurrence —
the key order of a Python `dict`/`Counter` built by one left-to-right
pass. -/
def firstDedup : List String → List String
  | [] => []
  | x :: xs => x :: (firstDedup xs).filter (fun y => y != x)

/-- Specification of `Counter(l)`: the distinct elements in
first-occurrence order, each with its number of occurrences. -/
def counterSpec (l : List String) : List (String × Nat) :=
  (firstDedup l).map (fun g => (g, l.count g))

/-! ## Text analysis (`metrics/analysis.py`)

`round(x, k)` on Python floats rounds half to even; on the `ℚ` model this
is round-half-even at `10^k`.
-/

/-- Round half to even to an integer. -/
def roundHalfEven (q : ℚ) : ℤ :=
  let f := ⌊q⌋
  let r := q - (f : ℚ)
  if r < 1/2 then f
  else if 1/2 < r then f + 1
  else if Even f then f else f + 1

/-- `round(q, k)`. -/
def pyRound (q : ℚ) (k : Nat) : ℚ :=
  ((roundHalfEven (q * (10 ^ k : ℕ)) : ℚ)) / ((10 ^ k : ℕ) : ℚ)

/-- The analysis block returned by `analyze_text`. -/
structure Analysis where
  counts : Counts
  fre_rounded : ℚ
  fkg_rounded : ℚ
  ttr_rounded : ℚ
  top_bigrams : List (String × Nat)
  top_trigrams : List (String × Nat)

def analyze_text (text : String) : Analysis :=
  { counts := basic_counts text
    fre_rounded := pyRound (flesch_reading_ease text) 3
    fkg_rounded := pyRound (flesch_kincaid_grade text) 3
    ttr_rounded := pyRound (type_token_ratio text) 4
    top_bigrams := top_ngrams text 2 10
    top_trigrams := top_ngrams text 3 10 }

/-- The delta block of `analyze_text_pair` (output minus input). -/
structure Delta where
  chars : ℤ
  words : ℤ
  sentences : ℤ
  unique_words : ℤ
  fre : ℚ
  fkg : ℚ
  ttr : ℚ

structure PairAnalysis where
  input : Analysis
  output : Analysis
  delta : Delta

def analyze_text_pair (input_text output_text : String) : PairAnalysis :=
  let inp := analyze_text input_text
  let out := analyze_text output_text
  { input := inp
    output := out
    delta :=
      { chars := (out.counts.chars : ℤ) - (inp.counts.chars : ℤ)
        words := (out.counts.words : ℤ) - (inp.counts.words : ℤ)
        sentences := (out.counts.sentences : ℤ) - (inp.counts.sentences : ℤ)
        unique_words := (out.counts.unique_words : ℤ) - (inp.counts.unique_words : ℤ)
        fre := out.fre_rounded - inp.fre_rounded
        fkg := out.fkg_rounded - inp.fkg_rounded
        ttr := out.ttr_rounded - inp.ttr_rounded } }

/-! ## Pipeline driver (`orchestrator/chain.py`)

`run_three_agent_workflow` calls `client.complete` three times.  The
Completion Provider is external; it is modelled as a function from the call
number and the full call to the `output` field of its response (`none` when
the response carries no `output` key — `resp.get("output", default)` then
yields the placeholder default).  `perf_counter()` stamps are the abstract
sequence `t 0 … t 7` (`t0`, plan start/end, exec start/end, refine
start/end, `t1`).
-/

/-- One call to `client.complete`, keyword arguments in source order. -/
structure CompletionCall where
  job_id : String
  agent : String
  input_text : String
  context : List (String × String)
  mode : String
  deriving DecidableEq, Repr

/-- The provider's behaviour: the `output` field of the response to the
`i`-th call of this workflow run. -/
def Provider : Type := Nat → CompletionCall → Option String

/-- The `timings` block of the persisted record. -/
structure Timings where
  plan_s : ℚ
  exec_s : ℚ
  refine_s : ℚ
  total_s : ℚ

/-- The `lengths` block of the persisted record. -/
structure Lengths where
  input_chars : Nat
  plan_chars : Nat
  draft_chars : Nat
  final_chars : Nat

/-- The record persisted by `put_record` at the end of a pipeline run. -/
structure PipelineRecord where
  input_kind : String
  timings : Timings
  lengths : Lengths
  plan : String
  draft : String
  final : String
  metrics : PairAnalysis

/-- Everything `run_three_agent_workflow` produces: the return value
`(job_id, final_text)`, the record it persists, the store after
persistence, and the trace of provider calls it made, in order. -/
structure WorkflowOutcome where
  job_id : String
  final_text : String
  record : PipelineRecord
  store_out : Store PipelineRecord
  calls : List CompletionCall

/-- `prompts.get(key, "")`. -/
def promptGet (prompts : List (String × String)) (key : String) : String :=
  (dictGet key prompts).getD ""

def run_three_agent_workflow (provider : Provider) (t : Nat → ℚ)
    (input_text : String) (prompts : List (String × String))
    (input_kind : String) (job_id : String)
    (store : Store PipelineRecord) : WorkflowOutcome :=
  let c1 : CompletionCall :=
    { job_id := job_id, agent := "agent_plan", input_text := input_text
      context := [("prompt", promptGet prompts "plan")]
      mode := "high_reasoning" }
  let plan_text := (provider 0 c1).getD "[no plan]"
  let c2 : CompletionCall :=
    { job_id := job_id, agent := "agent_exec", input_text := input_text
      context := [("plan", plan_text), ("prompt", promptGet prompts "execute")]
      mode := "high_reasoning" }
  let draft_text := (provider 1 c2).getD "[no draft]"
  let c3 : CompletionCall :=
    { job_id := job_id, agent := "agent_refine", input_text := draft_text
      context := [("prompt", promptGet prompts "refine")]
      mode := "high_reasoning" }
  let final_text := (provider 2 c3).getD "[no final]"
  let metrics := analyze_text_pair input_text final_text
  let record : PipelineRecord :=
    { input_kind := input_kind
      timings :=
        { plan_s := t 2 - t 1, exec_s := t 4 - t 3
          refine_s := t 6 - t 5, total_s := t 7 - t 0 }
      lengths :=
        { input_chars := input_text.length, plan_chars := plan_text.length
          draft_chars := draft_text.length, final_chars := final_text.length }
      plan := plan_text
      draft := draft_text
      final := final_text
      metrics := metrics }
  { job_id := job_id
    final_text := final_text
    record := record
    store_out := put_record job_id record store
    calls := [c1, c2, c3] }

/-! ## Job scheduler (`server/engine_service.py`)

`Job` mirrors the dataclass.  `execute_command` mints a job id (the
`uuid4` value is the abstract parameter `job_id`), registers the PENDING
job in the in-memory table, and appends the background task to a task list
(`asyncio.create_task` schedules the coroutine; nothing of it runs before
`execute_command` returns).  `_execute_job` is the background body: mark
RUNNING, dispatch to a handler, then exactly one terminal assignment.

The seven handlers call into the agent registry/builder, which the spec
treats as external collaborators; a handler is modelled by what
`_execute_job` observes of it: a new external-world state, the job's
progress after the handler body, the log lines it appended, and either the
returned dict's fields or the message of the exception it raised (the
source handlers assign only `job.progress` and append to `job.logs`; each
returns a dict literal on success).
-/

inductive JobStatus where
  | pending : JobStatus
  | running : JobStatus
  | completed : JobStatus
  | failed : JobStatus
  deriving DecidableEq, Repr

/-- COMPLETED and FAILED are the terminal statuses. -/
def JobStatus.isTerminal : JobStatus → Bool
  | .completed => true
  | .failed => true
  | _ => false

/-- The `Job` dataclass. -/
structure Job where
  id : String
  command : String
  status : JobStatus
  created_at : ℚ
  started_at : Option ℚ
  completed_at : Option ℚ
  result : Option Json
  error : Option String
  progress : Nat
  logs : List String

/-- What `_execute_job` observes of one dispatched handler run. -/
structure HandlerRun (W : Type) where
  world : W
  progress : Option Nat
  logLines : List String
  outcome : Except String (List (String × Json))

/-- The seven recognized handlers, abstract over the external world `W`
(registry, builder, file system).  Each takes the world and the params. -/
structure KnownHandlers (W : Type) where
  create_agent : W → Json → HandlerRun W
  list_agents : W → HandlerRun W
  run_agent : W → Json → HandlerRun W
  get_registry : W → HandlerRun W
  delete_agent : W → Json → HandlerRun W
  update_agent : W → Json → HandlerRun W
  server_status : W → HandlerRun W

/-- The command names `_execute_job` routes to a handler. -/
def knownCommands : List String :=
  ["create_agent", "list_agents", "run_agent", "get_registry",
   "delete_agent", "update_agent", "server_status"]

/-- The `if/elif` routing of `_execute_job`; an unrecognized name raises
`ValueError(f"Unknown command: {job.command}")`, which leaves the world
untouched and runs no handler. -/
def dispatch {W : Type} (h : KnownHandlers W) (command : String) (w : W)
    (params : Json) : HandlerRun W :=
  if command = "create_agent" then h.create_agent w params
  else if command = "list_agents" then h.list_agents w
  else if command = "run_agent" then h.run_agent w params
  else if command = "get_registry" then h.get_registry w
  else if command = "delete_agent" then h.delete_agent w params
  else if command = "update_agent" then h.update_agent w params
  else if command = "server_status" then h.server_status w
  else
    { world := w, progress := none, logLines := []
      outcome := .error ("Unknown command: " ++ command) }

/-- The background task's outcome: the final world and job, and the
sequence of values assigned to `job.status` by `_execute_job` itself. -/
structure ExecResult (W : Type) where
  world : W
  job : Job
  statusTrace : List JobStatus

/-- `_execute_job(job, params)`: set RUNNING and `started_at`, log,
dispatch, then the single terminal assignment — COMPLETED with the result
dict, `progress = 100` and `completed_at` on return, or FAILED with the
exception text and `completed_at` on raise. -/
def execute_job {W : Type} (h : KnownHandlers W) (w : W) (job : Job)
    (params : Json) (t_start t_end : ℚ) : ExecResult W :=
  let j1 : Job :=
    { job with
      status := .running,
      started_at := some t_start,
      logs := job.logs ++ ["Starting execution of command: " ++ job.command] }
  let dr := dispatch h job.command w params
  let j2 : Job :=
    { j1 with
      progress := dr.progress.getD j1.progress,
      logs := j1.logs ++ dr.logLines }
  match dr.outcome with
  | .ok fields =>
      { world := dr.world,
        job :=
          { j2 with
            result := some (Json.obj fields),
            status := .completed,
            completed_at := some t_end,
            progress := 100,
            logs := j2.logs ++ ["Command completed successfully"] },
        statusTrace := [.running, .completed] }
  | .error e =>
      { world := dr.world,
        job :=
          { j2 with
            status := .failed,
            error := some e,
            completed_at := some t_end,
            logs := j2.logs ++ ["Command failed: " ++ e] },
        statusTrace := [.running, .failed] }

/-- The scheduler's in-memory state: the job table and the queue of
background tasks created but not yet run. -/
structure ServiceState where
  jobs : Store Job
  tasks : List (String × Json)

/-- `execute_command(command, params)`: build a PENDING job under a fresh
id, register it in the table, schedule `_execute_job` as a background
task, and return the job — still PENDING, its handler not yet run. -/
def execute_command (st : ServiceState) (command : String) (params : Json)
    (job_id : String) (now : ℚ) : ServiceState × Job :=
  let job : Job :=
    { id := job_id, command := command, status := .pending
      created_at := now, started_at := none, completed_at := none
      result := none, error := none, progress := 0, logs := [] }
  ({ jobs := dictSet job_id job st.jobs
     tasks := st.tasks ++ [(job_id, params)] }, job)

/-! ## Update broadcaster (`broadcast_update`)

The source iterates over `self.active_websockets` with a `for` loop and
calls `self.active_websockets.remove(websocket)` inside the loop's
`except` arm.  CPython's list iterator holds a bare index: it yields
`lst[i]` and advances `i`, so a removal shifts the remaining elements left
and the element after the removed one is never yielded.  `broadcastAux`
models exactly that loop; `fails s = true` means delivery to subscriber
`s` raises.  It returns the registry after the call and the list of
subscribers to which delivery was attempted, in attempt order.
-/

def broadcastAux {α : Type} [DecidableEq α] (fails : α → Bool)
    (lst : List α) (i : Nat) : List α × List α :=
  if h : i < lst.length then
    let x := lst.get ⟨i, h⟩
    if fails x then
      let r := broadcastAux fails (lst.erase x) (i + 1)
      (r.1, x :: r.2)
    else
      let r := broadcastAux fails lst (i + 1)
      (r.1, x :: r.2)
  else (lst, [])
termination_by lst.length - i
decreasing_by
  · have hx : lst.get ⟨i, h⟩ ∈ lst := lst.get_mem i h
    have := List.length_erase_of_mem hx
    omega
  · omega

/-- `broadcast_update(job)`: run the delivery loop over the registry. -/
def broadcast_update {α : Type} [DecidableEq α] (fails : α → Bool)
    (registry : List α) : List α × List α :=
  broadcastAux fails registry 0

/-! ## Store lemmas -/

theorem dictGet_dictSet_self {V : Type} (k : String) (v : V) (c : Store V) :
    dictGet k (dictSet k v c) = some v := by
  induction c with
  | nil => simp [dictSet, dictGet]
  | cons hd tl ih =>
      obtain ⟨k', v'⟩ := hd
      by_cases h : k' = k
      · simp [dictSet, dictGet, h]
      · simp [dictSet, dictGet, h, ih]

theorem dictGet_dictSet_other {V : Type} (k k' : String) (v : V) (c : Store V)
    (hne : k' ≠ k) : dictGet k' (dictSet k v c) = dictGet k' c := by
  induction c with
  | nil => simp [dictSet, dictGet, Ne.symm hne]
  | cons hd tl ih =>
      obtain ⟨k₀, v₀⟩ := hd
      by_cases h : k₀ = k
      · subst h
        simp [dictSet, dictGet, Ne.symm hne]
      · by_cases h' : k₀ = k'
        · simp [dictSet, dictGet, h, h', hne]
        · simp [dictSet, dictGet, h, h', ih]

theorem dictGet_eq_none_of_not_mem {V : Type} (k : String) (c : Store V)
    (h : k ∉ storeKeys c) : dictGet k c = none := by
  induction c with
  | nil => rfl
  | cons hd tl ih =>
      obtain ⟨k₀, v₀⟩ := hd
      simp only [storeKeys, List.map_cons, List.mem_cons] at h
      push_neg at h
      simp [dictGet, Ne.symm h.1, ih (by simpa [storeKeys] using h.2)]

theorem storeKeys_dictSet_of_not_mem {V : Type} (k : String) (v : V)
    (c : Store V) (h : k ∉ storeKeys c) :
    storeKeys (dictSet k v c) = storeKeys c ++ [k] := by
  induction c with
  | nil => rfl
  | cons hd tl ih =>
      obtain ⟨k₀, v₀⟩ := hd
      simp only [storeKeys, List.map_cons, List.mem_cons] at h
      push_neg at h
      simp only [dictSet, Ne.symm h.1, if_neg (Ne.symm h.1)]
      simpa [storeKeys] using ih (by simpa [storeKeys] using h.2)

/-! ## Claim C10 — cache round trip -/

/-- **C10**: for every JSON-representable record `r` (any value of type
`Json` — string-keyed objects, arrays, strings, finite numbers, booleans,
null), `get_record k (put_record k r c) = some r`; `put_record` leaves
every other key's record unchanged; and `get_record` of a key never stored
returns `none`. -/
theorem c10_put_get_roundtrip (k k' k₀ : String) (r : Json) (c c₀ : Cache)
    (hk : k' ≠ k) (h₀ : k₀ ∉ storeKeys c₀) :
    get_record k (put_record k r c) = some r ∧
    get_record k' (put_record k r c) = get_record k' c ∧
    get_record k₀ c₀ = none := by
  refine ⟨dictGet_dictSet_self k r c, dictGet_dictSet_other k k' r c hk, ?_⟩
  exact dictGet_eq_none_of_not_mem k₀ c₀ h₀

/-- Witness for `c10_put_get_roundtrip` at concrete inputs. -/
theorem c10_put_get_roundtrip_witness :
    ("b" : String) ≠ "a" ∧ ("z" : String) ∉ storeKeys (emptyCache) ∧
    (get_record "a" (put_record "a" (Json.str "v") emptyCache) =
      some (Json.str "v") ∧
     get_record "b" (put_record "a" (Json.str "v") emptyCache) =
      get_record "b" emptyCache ∧
     get_record "z" emptyCache = none) := by
  refine ⟨by decide, by simp [storeKeys, emptyCache], ?_⟩
  exact c10_put_get_roundtrip "a" "b" "z" (Json.str "v") emptyCache emptyCache
    (by decide) (by simp [storeKeys, emptyCache])

/-! ## Claim C4 — Submit registers a PENDING job and returns at once -/

/-- **C4**: `execute_command` builds a Job in PENDING state under the
fresh id, registers it in the job table before returning, appends its
execution to the background task queue, leaves every other table entry
untouched, and returns the job with no sign of execution (`started_at`,
`result`, `error` unset, progress 0, no logs). -/
theorem c4_submit_pending (st : ServiceState) (command : String)
    (params : Json) (job_id : String) (now : ℚ)
    (hfresh : job_id ∉ storeKeys st.jobs) :
    let r := execute_command st command params job_id now
    r.2.status = .pending ∧ r.2.id = job_id ∧ r.2.command = command ∧
    r.2.started_at = none ∧ r.2.completed_at = none ∧ r.2.result = none ∧
    r.2.error = none ∧ r.2.progress = 0 ∧ r.2.logs = [] ∧
    dictGet job_id r.1.jobs = some r.2 ∧
    (∀ k, k ≠ job_id → dictGet k r.1.jobs = dictGet k st.jobs) ∧
    storeKeys r.1.jobs = storeKeys st.jobs ++ [job_id] ∧
    r.1.tasks = st.tasks ++ [(job_id, params)] := by
  refine ⟨rfl, rfl, rfl, rfl, rfl, rfl, rfl, rfl, rfl, ?_, ?_, ?_, rfl⟩
  · exact dictGet_dictSet_self _ _ _
  · intro k hk
    exact dictGet_dictSet_other _ _ _ _ hk
  · exact storeKeys_dictSet_of_not_mem _ _ _ hfresh

/-- Witness for `c4_submit_pending` at concrete inputs. -/
theorem c4_submit_pending_witness :
    ("j1" : String) ∉ storeKeys (⟨[], []⟩ : ServiceState).jobs ∧
    (let r := execute_command ⟨[], []⟩ "run_agent" Json.null "j1" 0
     r.2.status = .pending ∧ r.2.id = "j1" ∧ r.2.command = "run_agent" ∧
     r.2.started_at = none ∧ r.2.completed_at = none ∧ r.2.result = none ∧
     r.2.error = none ∧ r.2.progress = 0 ∧ r.2.logs = [] ∧
     dictGet "j1" r.1.jobs = some r.2 ∧
     (∀ k, k ≠ "j1" → dictGet k r.1.jobs = dictGet k (⟨[], []⟩ : ServiceState).jobs) ∧
     storeKeys r.1.jobs = storeKeys (⟨[], []⟩ : ServiceState).jobs ++ ["j1"] ∧
     r.1.tasks = ([] : List (String × Json)) ++ [("j1", Json.null)]) := by
  refine ⟨by simp [storeKeys], ?_⟩
  exact c4_submit_pending ⟨[], []⟩ "run_agent" Json.null "j1" 0
    (by simp [storeKeys])

/-! ## Claim C5 — unknown operation fails the job, not the scheduler -/

/-- **C5**: for a command outside the recognized handler names the job
transitions to FAILED (not COMPLETED), the scheduler completes normally
with the external world untouched (no handler side effects), and the
error is a non-empty string mentioning the unknown command name. -/
theorem c5_unknown_command {W : Type} (h : KnownHandlers W) (w : W)
    (job : Job) (params : Json) (t1 t2 : ℚ)
    (hres : job.result = none)
    (hunk : job.command ∉ knownCommands) :
    let r := execute_job h w job params t1 t2
    r.job.status = .failed ∧ r.job.status ≠ .completed ∧
    r.world = w ∧ r.job.result = none ∧
    r.job.error = some ("Unknown command: " ++ job.command) ∧
    (∀ e, r.job.error = some e →
      e ≠ "" ∧ ∃ pre post, e = pre ++ job.command ++ post) := by
  simp only [knownCommands, List.mem_cons, List.not_mem_nil, or_false,
    not_or] at hunk
  obtain ⟨h1, h2, h3, h4, h5, h6, h7⟩ := hunk
  have hdisp : dispatch h job.command w params =
      { world := w, progress := none, logLines := [],
        outcome := .error ("Unknown command: " ++ job.command) } := by
    simp [dispatch, h1, h2, h3, h4, h5, h6, h7]
  intro r
  have hr : r = execute_job h w job params t1 t2 := rfl
  have hrr : r =
      { world := w,
        job :=
          { job with
            status := .failed,
            started_at := some t1,
            error := some ("Unknown command: " ++ job.command),
            completed_at := some t2,
            logs := job.logs ++
              ["Starting execution of command: " ++ job.command] ++
              ["Command failed: " ++ ("Unknown command: " ++ job.command)] },
        statusTrace := [.running, .failed] } := by
    rw [hr]
    unfold execute_job
    rw [hdisp]
    simp
  rw [hrr]
  dsimp only
  refine ⟨rfl, by decide, rfl, hres, rfl, ?_⟩
  intro e he
  have he' : e = "Unknown command: " ++ job.command := by
    simpa using he.symm
  subst he'
  constructor
  · intro hemp
    have hlen : ("Unknown command: " ++ job.command).length = 0 := by
      rw [hemp]; rfl
    rw [String.length_append] at hlen
    have h17 : ("Unknown command: " : String).length = 17 := rfl
    omega
  · exact ⟨"Unknown command: ", "", by simp⟩

/-- Witness for `c5_unknown_command` at concrete inputs. -/
theorem c5_unknown_command_witness :
    (let job : Job :=
      { id := "j1", command := "nonexistent_op", status := .pending
        created_at := 0, started_at := none, completed_at := none
        result := none, error := none, progress := 0, logs := [] }
     job.result = none ∧ job.command ∉ knownCommands) ∧
    (let job : Job :=
      { id := "j1", command := "nonexistent_op", status := .pending
        created_at := 0, started_at := none, completed_at := none
        result := none, error := none, progress := 0, logs := [] }
     let triv : KnownHandlers Unit :=
      { create_agent := fun w _ => ⟨w, none, [], .ok []⟩
        list_agents := fun w => ⟨w, none, [], .ok []⟩
        run_agent := fun w _ => ⟨w, none, [], .ok []⟩
        get_registry := fun w => ⟨w, none, [], .ok []⟩
        delete_agent := fun w _ => ⟨w, none, [], .ok []⟩
        update_agent := fun w _ => ⟨w, none, [], .ok []⟩
        server_status := fun w => ⟨w, none, [], .ok []⟩ }
     let r := execute_job triv () job Json.null 0 1
     r.job.status = .failed ∧ r.job.status ≠ .completed ∧
     r.world = () ∧ r.job.result = none ∧
     r.job.error = some ("Unknown command: " ++ job.command) ∧
     (∀ e, r.job.error = some e →
       e ≠ "" ∧ ∃ pre post, e = pre ++ job.command ++ post)) := by
  refine ⟨⟨rfl, by decide⟩, ?_⟩
  exact c5_unknown_command _ () _ Json.null 0 1 rfl (by decide)

/-! ## Claim C1 — exactly one terminal transition per executed job -/

/-- **C1**: for a job entering the executor with `result` and `error`
unset (as `execute_command` creates it), `_execute_job` performs exactly
one terminal transition: COMPLETED with the handler's returned dict,
progress 100 and no error when the handler returns; FAILED with the
exception text and no result when it raises; `completed_at` is set in
either case; exactly one of result/error ends non-null; and the status
trace contains exactly one terminal status, in last position. -/
theorem c1_terminal_transition {W : Type} (h : KnownHandlers W) (w : W)
    (job : Job) (params : Json) (t1 t2 : ℚ)
    (hres : job.result = none) (herr : job.error = none) :
    let r := execute_job h w job params t1 t2
    let dr := dispatch h job.command w params
    (r.job.status = .completed ∨ r.job.status = .failed) ∧
    (∀ fields, dr.outcome = .ok fields →
        r.job.status = .completed ∧ r.job.result = some (Json.obj fields) ∧
        r.job.progress = 100 ∧ r.job.error = none) ∧
    (∀ e, dr.outcome = .error e →
        r.job.status = .failed ∧ r.job.error = some e ∧ r.job.result = none) ∧
    r.job.completed_at = some t2 ∧
    ((r.job.result.isSome ∧ r.job.error = none) ∨
     (r.job.result = none ∧ r.job.error.isSome)) ∧
    (r.statusTrace.filter JobStatus.isTerminal).length = 1 ∧
    (∀ i (hi : i < r.statusTrace.length),
        (r.statusTrace.get ⟨i, hi⟩).isTerminal = true →
        i = r.statusTrace.length - 1) := by
  intro r dr
  have hr : r = execute_job h w job params t1 t2 := rfl
  have hdr : dr = dispatch h job.command w params := rfl
  rcases hout : dr.outcome with e | fields
  · -- handler raised: FAILED
    have hrr : r =
        { world := dr.world,
          job :=
            { job with
              status := .failed,
              started_at := some t1,
              error := some e,
              completed_at := some t2,
              progress := dr.progress.getD job.progress,
              logs := job.logs ++
                ["Starting execution of command: " ++ job.command] ++
                dr.logLines ++ ["Command failed: " ++ e] },
          statusTrace := [.running, .failed] } := by
      rw [hr]
      unfold execute_job
      rw [← hdr]
      simp [hout]
    rw [hrr]
    dsimp only
    refine ⟨Or.inr rfl, ?_, ?_, rfl, Or.inr ⟨hres, rfl⟩, rfl, ?_⟩
    · intro fields hf
      exact absurd hf (by simp)
    · intro e' he
      simp only [Except.error.injEq] at he
      subst he
      exact ⟨rfl, rfl, hres⟩
    · intro i hi hterm
      simp only [List.length_cons, List.length_nil] at hi ⊢
      interval_cases i
      · simp [List.get, JobStatus.isTerminal] at hterm
      · rfl
  · -- handler returned: COMPLETED
    have hrr : r =
        { world := dr.world,
          job :=
            { job with
              status := .completed,
              started_at := some t1,
              result := some (Json.obj fields),
              completed_at := some t2,
              progress := 100,
              logs := job.logs ++
                ["Starting execution of command: " ++ job.command] ++
                dr.logLines ++ ["Command completed successfully"] },
          statusTrace := [.running, .completed] } := by
      rw [hr]
      unfold execute_job
      rw [← hdr]
      simp [hout]
    rw [hrr]
    dsimp only
    refine ⟨Or.inl rfl, ?_, ?_, rfl, Or.inl ⟨rfl, herr⟩, rfl, ?_⟩
    · intro fields' hf
      simp only [Except.ok.injEq] at hf
      subst hf
      exact ⟨rfl, rfl, rfl, herr⟩
    · intro e' he
      exact absurd he (by simp)
    · intro i hi hterm
      simp only [List.length_cons, List.length_nil] at hi ⊢
      interval_cases i
      · simp [List.get, JobStatus.isTerminal] at hterm
      · rfl

/-- Witness for `c1_terminal_transition` at concrete inputs. -/
theorem c1_terminal_transition_witness :
    (let job : Job :=
      { id := "j1", command := "list_agents", status := .pending
        created_at := 0, started_at := none, completed_at := none
        result := none, error := none, progress := 0, logs := [] }
     job.result = none ∧ job.error = none) ∧
    (let job : Job :=
      { id := "j1", command := "list_agents", status := .pending
        created_at := 0, started_at := none, completed_at := none
        result := none, error := none, progress := 0, logs := [] }
     let triv : KnownHandlers Unit :=
      { create_agent := fun w _ => ⟨w, none, [], .ok []⟩
        list_agents := fun w => ⟨w, none, [], .ok [("success", Json.bool true)]⟩
        run_agent := fun w _ => ⟨w, none, [], .ok []⟩
        get_registry := fun w => ⟨w, none, [], .ok []⟩
        delete_agent := fun w _ => ⟨w, none, [], .ok []⟩
        update_agent := fun w _ => ⟨w, none, [], .ok []⟩
        server_status := fun w => ⟨w, none, [], .ok []⟩ }
     let r := execute_job triv () job Json.null 0 1
     let dr := dispatch triv job.command () Json.null
     (r.job.status = .completed ∨ r.job.status = .failed) ∧
     (∀ fields, dr.outcome = .ok fields →
         r.job.status = .completed ∧ r.job.result = some (Json.obj fields) ∧
         r.job.progress = 100 ∧ r.job.error = none) ∧
     (∀ e, dr.outcome = .error e →
         r.job.status = .failed ∧ r.job.error = some e ∧ r.job.result = none) ∧
     r.job.completed_at = some 1 ∧
     ((r.job.result.isSome ∧ r.job.error = none) ∨
      (r.job.result = none ∧ r.job.error.isSome)) ∧
     (r.statusTrace.filter JobStatus.isTerminal).length = 1 ∧
     (∀ i (hi : i < r.statusTrace.length),
         (r.statusTrace.get ⟨i, hi⟩).isTerminal = true →
         i = r.statusTrace.length - 1)) := by
  refine ⟨⟨rfl, rfl⟩, ?_⟩
  exact c1_terminal_transition _ () _ Json.null 0 1 rfl rfl

/-! ## Claim C2 — strict sequential three-stage dataflow -/

/-- **C2**: for every input text and every provider behaviour the driver
makes exactly three provider calls, in plan/execute/refine order; the
execute call carries the original input text and the context
`{plan: <plan output>, prompt: prompts.execute}`; the refine call's input
text is the execute stage's output; and a stage output that is the empty
string is passed on unchanged — no short-circuiting. -/
theorem c2_pipeline_dataflow (provider : Provider) (t : Nat → ℚ)
    (input_text : String) (prompts : List (String × String))
    (input_kind job_id : String) (store : Store PipelineRecord) :
    let r := run_three_agent_workflow provider t input_text prompts
      input_kind job_id store
    ∃ call1 call2 call3, r.calls = [call1, call2, call3] ∧
      call1.agent = "agent_plan" ∧ call1.input_text = input_text ∧
      call1.context = [("prompt", promptGet prompts "plan")] ∧
      (let plan_out := (provider 0 call1).getD "[no plan]"
       call2.agent = "agent_exec" ∧ call2.input_text = input_text ∧
       call2.context =
        [("plan", plan_out), ("prompt", promptGet prompts "execute")] ∧
       (let exec_out := (provider 1 call2).getD "[no draft]"
        call3.agent = "agent_refine" ∧ call3.input_text = exec_out ∧
        call3.context = [("prompt", promptGet prompts "refine")] ∧
        (provider 1 call2 = some "" → call3.input_text = ""))) := by
  intro r
  refine ⟨_, _, _, rfl, rfl, rfl, rfl, rfl, rfl, rfl, rfl, rfl, rfl, ?_⟩
  intro hempty
  simp only [hempty, Option.getD_some]

/-- Witness for `c2_pipeline_dataflow`'s inner implication: an
always-empty provider still feeds the empty string forward. -/
theorem c2_pipeline_dataflow_witness :
    (let r := run_three_agent_workflow (fun _ _ => some "") (fun _ => 0)
      "input" [] "text" "j1" []
     ∃ call1 call2 call3, r.calls = [call1, call2, call3] ∧
      call1.agent = "agent_plan" ∧ call1.input_text = "input" ∧
      call1.context = [("prompt", promptGet [] "plan")] ∧
      (let plan_out := ((fun (_ : Nat) (_ : CompletionCall) =>
          some "") 0 call1).getD "[no plan]"
       call2.agent = "agent_exec" ∧ call2.input_text = "input" ∧
       call2.context =
        [("plan", plan_out), ("prompt", promptGet [] "execute")] ∧
       (let exec_out := ((fun (_ : Nat) (_ : CompletionCall) =>
           some "") 1 call2).getD "[no draft]"
        call3.agent = "agent_refine" ∧ call3.input_text = exec_out ∧
        call3.context = [("prompt", promptGet [] "refine")] ∧
        ((fun (_ : Nat) (_ : CompletionCall) => some "") 1 call2 = some "" →
          call3.input_text = "")))) :=
  c2_pipeline_dataflow (fun _ _ => some "") (fun _ => 0) "input" [] "text"
    "j1" []

/-! ## Claim C3 — persisted record matches stage outputs and return value -/

/-- **C3**: the record persisted under the freshly minted pipeline job id
has `plan`/`draft`/`final` equal to the three stage outputs in order, the
returned `finalText` equals the persisted record's `final`, and the
concrete stub scenario of the spec produces exactly the three stub
strings. -/
theorem c3_persisted_record (provider : Provider) (t : Nat → ℚ)
    (input_text : String) (prompts : List (String × String))
    (input_kind job_id : String) (store : Store PipelineRecord) :
    let r := run_three_agent_workflow provider t input_text prompts
      input_kind job_id store
    (get_record job_id r.store_out = some r.record ∧
     (∃ call1 call2 call3, r.calls = [call1, call2, call3] ∧
       r.record.plan = (provider 0 call1).getD "[no plan]" ∧
       r.record.draft = (provider 1 call2).getD "[no draft]" ∧
       r.record.final = (provider 2 call3).getD "[no final]") ∧
     r.final_text = r.record.final) ∧
    (let stub : Provider := fun i _ =>
      [some "- Plan bullets", some "Draft output",
       some "Final refined output"].getD i none
     let rs := run_three_agent_workflow stub t
      "\x5csection\x7bA\x7d Example" [("plan", "p"), ("execute", "e"),
        ("refine", "r")] input_kind job_id store
     rs.final_text = "Final refined output" ∧
     rs.record.plan = "- Plan bullets" ∧
     rs.record.draft = "Draft output" ∧
     rs.record.final = "Final refined output" ∧
     get_record job_id rs.store_out = some rs.record) := by
  intro r
  refine ⟨⟨?_, ⟨_, _, _, rfl, rfl, rfl, rfl⟩, rfl⟩, ?_⟩
  · exact dictGet_dictSet_self _ _ _
  · intro stub rs
    exact ⟨rfl, rfl, rfl, rfl, dictGet_dictSet_self _ _ _⟩

/-! ## Claim C7 — zero-guards of the readability metrics -/

theorem not_letter_of_punct {c : Char} (h : isSentencePunct c = true) :
    isAsciiLetter c = false := by
  have : (c = '.' ∨ c = '!') ∨ c = '?' := by
    simpa [isSentencePunct] using h
  rcases this with (rfl | rfl) | rfl <;> decide

theorem not_letter_of_space {c : Char} (h : isPySpace c = true) :
    isAsciiLetter c = false := by
  have : ((((c = ' ' ∨ c = '\t') ∨ c = '\n') ∨ c = '\x0d') ∨ c = '\x0b') ∨
      c = '\x0c' := by
    simpa [isPySpace] using h
  rcases this with ((((rfl | rfl) | rfl) | rfl) | rfl) | rfl <;> decide

/-- A part that strips to nothing is all whitespace. -/
theorem all_space_of_pyStrip_eq_nil {l : List Char} (h : pyStrip l = []) :
    ∀ c ∈ l, isPySpace c = true := by
  unfold pyStrip at h
  have h1 : List.dropWhile isPySpace
      (List.dropWhile isPySpace l).reverse = [] := by
    have := congrArg List.reverse h
    simpa using this
  rw [List.dropWhile_eq_nil_iff] at h1
  intro c hc
  rcases List.mem_append.mp
      ((List.takeWhile_append_dropWhile isPySpace l) ▸ hc) with htk | hdr
  · exact List.mem_takeWhile_imp htk
  · exact h1 c (List.mem_reverse.mpr hdr)

/-- Unfolding: base case of the sentence-split scanner. -/
theorem splitSentsAux_nil (acc : List Char) :
    splitSentsAux acc [] = [acc.reverse] := by
  rw [splitSentsAux]

/-- Unfolding: punctuation run not followed by whitespace joins the
current part. -/
theorem splitSentsAux_cons_sep_nospace (acc : List Char) (c : Char)
    (cs : List Char) (hc : isSentencePunct c = true)
    (hsp : List.takeWhile isPySpace
      (List.dropWhile isSentencePunct (c :: cs)) = []) :
    splitSentsAux acc (c :: cs) =
      splitSentsAux ((List.takeWhile isSentencePunct (c :: cs)).reverse ++ acc)
        (List.dropWhile isSentencePunct (c :: cs)) := by
  rw [splitSentsAux]
  simp only [dif_pos hc, hsp, if_true, ite_true]

/-- Unfolding: a matched separator closes the current part. -/
theorem splitSentsAux_cons_sep_space (acc : List Char) (c : Char)
    (cs : List Char) (hc : isSentencePunct c = true)
    (hsp : List.takeWhile isPySpace
      (List.dropWhile isSentencePunct (c :: cs)) ≠ []) :
    splitSentsAux acc (c :: cs) =
      acc.reverse :: splitSentsAux []
        (List.dropWhile isPySpace
          (List.dropWhile isSentencePunct (c :: cs))) := by
  rw [splitSentsAux]
  simp only [dif_pos hc, if_neg hsp]

/-- Unfolding: an ordinary character goes into the current part. -/
theorem splitSentsAux_cons_nonsep (acc : List Char) (c : Char)
    (cs : List Char) (hc : ¬ isSentencePunct c = true) :
    splitSentsAux acc (c :: cs) = splitSentsAux (c :: acc) cs := by
  rw [splitSentsAux]
  simp only [dif_neg hc]

/-- If every part of the sentence split is all-whitespace, the input (and
the accumulator) contain no letter. -/
theorem splitSentsAux_no_letters (acc l : List Char)
    (h : ∀ p ∈ splitSentsAux acc l, ∀ c ∈ p, isPySpace c = true) :
    (∀ c ∈ acc, isPySpace c = true) ∧ ∀ c ∈ l, isAsciiLetter c = false := by
  induction acc, l using splitSentsAux.induct with
  | case1 acc =>
      refine ⟨?_, by simp⟩
      intro c hc
      exact h acc.reverse (by rw [splitSentsAux_nil]; exact List.mem_singleton.mpr rfl)
        c (by simpa using hc)
  | case2 acc c cs hc seps rest1 hsp ih =>
      -- punctuation run joins the current part
      simp only [seps, rest1] at hsp ih
      rw [splitSentsAux_cons_sep_nospace acc c cs hc hsp] at h
      have hrec := ih h
      refine ⟨?_, ?_⟩
      · intro cc hcc
        exact hrec.1 cc (List.mem_append_right _ hcc)
      · intro cc hcc
        have hsplit : List.takeWhile isSentencePunct (c :: cs) ++
            List.dropWhile isSentencePunct (c :: cs) = c :: cs :=
          List.takeWhile_append_dropWhile _ _
        rcases List.mem_append.mp (hsplit ▸ hcc) with htk | hdr
        · exact not_letter_of_punct (List.mem_takeWhile_imp htk)
        · exact hrec.2 cc hdr
  | case3 acc c cs hc rest1 hsp ih =>
      -- matched separator: the part closes here
      simp only [rest1] at hsp ih
      rw [splitSentsAux_cons_sep_space acc c cs hc hsp] at h
      have hrec := ih (fun p hp => h p (List.mem_cons_of_mem _ hp))
      refine ⟨?_, ?_⟩
      · intro cc hcc
        exact h acc.reverse (List.mem_cons_self _ _) cc (by simpa using hcc)
      · intro cc hcc
        have hsplit : List.takeWhile isSentencePunct (c :: cs) ++
            List.dropWhile isSentencePunct (c :: cs) = c :: cs :=
          List.takeWhile_append_dropWhile _ _
        rcases List.mem_append.mp (hsplit ▸ hcc) with htk | hdr
        · exact not_letter_of_punct (List.mem_takeWhile_imp htk)
        · have hsplit2 : List.takeWhile isPySpace
              (List.dropWhile isSentencePunct (c :: cs)) ++
              List.dropWhile isPySpace
              (List.dropWhile isSentencePunct (c :: cs)) =
              List.dropWhile isSentencePunct (c :: cs) :=
            List.takeWhile_append_dropWhile _ _
          rcases List.mem_append.mp (hsplit2 ▸ hdr) with hsp2 | hrest
          · exact not_letter_of_space (List.mem_takeWhile_imp hsp2)
          · exact hrec.2 cc hrest
  | case4 acc c cs hc ih =>
      rw [splitSentsAux_cons_nonsep acc c cs hc] at h
      have hrec := ih h
      refine ⟨fun cc hcc => hrec.1 cc (List.mem_cons_of_mem _ hcc), ?_⟩
      intro cc hcc
      rcases List.mem_cons.mp hcc with rfl | hmem
      · exact not_letter_of_space (hrec.1 cc (List.mem_cons_self _ _))
      · exact hrec.2 cc hmem

/-- A letterless input yields no word tokens. -/
theorem tokenizeWordsAux_nil : tokenizeWordsAux [] = [] := by
  rw [tokenizeWordsAux]

theorem tokenize_words_empty : tokenize_words "" = [] := by
  unfold tokenize_words
  rw [show ("" : String).toList = [] from rfl, tokenizeWordsAux_nil]
  rfl

theorem tokenizeWordsAux_eq_nil (l : List Char)
    (h : ∀ c ∈ l, isAsciiLetter c = false) : tokenizeWordsAux l = [] := by
  induction l with
  | nil => exact tokenizeWordsAux_nil
  | cons c cs ih =>
      have hc : isAsciiLetter c = false := h c (List.mem_cons_self _ _)
      rw [tokenizeWordsAux]
      simp only [hc]
      exact ih (fun d hd => h d (List.mem_cons_of_mem _ hd))

/-- When the sentence list is empty the text has no letters, hence no
word tokens either. -/
theorem tokenize_words_eq_nil_of_sentences_nil (text : String)
    (h : tokenize_sentences text = []) : tokenize_words text = [] := by
  unfold tokenize_sentences at h
  rw [List.map_eq_nil_iff, List.filter_eq_nil_iff] at h
  have hparts : ∀ p ∈ splitSentsAux [] text.toList, ∀ c ∈ p,
      isPySpace c = true := by
    intro p hp c hc
    have hstrip := h (pyStrip p) (List.mem_map_of_mem pyStrip hp)
    simp only [Bool.not_eq_true, not_not] at hstrip
    have hnil : pyStrip p = [] := by
      simpa [List.isEmpty_iff] using hstrip
    exact all_space_of_pyStrip_eq_nil hnil c hc
  have hnolet := (splitSentsAux_no_letters [] text.toList hparts).2
  unfold tokenize_words
  rw [tokenizeWordsAux_eq_nil _ hnolet]
  rfl

/-- **C7**: a text with no words or no sentences scores 0 on the
type-token ratio, Flesch Reading Ease and Flesch-Kincaid Grade; and for
every text the divisors of those formulas are positive whenever their
division branch is reached (no division by zero). -/
theorem c7_metrics_zero_guard (text : String)
    (h : tokenize_words text = [] ∨ tokenize_sentences text = []) :
    type_token_ratio text = 0 ∧ flesch_reading_ease text = 0 ∧
    flesch_kincaid_grade text = 0 ∧
    (∀ t : String, ¬ (tokenize_words t).isEmpty →
      0 < (tokenize_words t).length ∧
      0 < max 1 (tokenize_sentences t).length) := by
  have hw : tokenize_words text = [] := by
    rcases h with hw | hs
    · exact hw
    · exact tokenize_words_eq_nil_of_sentences_nil text hs
  refine ⟨?_, ?_, ?_, ?_⟩
  · unfold type_token_ratio
    rw [hw]
    rfl
  · unfold flesch_reading_ease
    rw [hw]
    rfl
  · unfold flesch_kincaid_grade
    rw [hw]
    rfl
  · intro t ht
    refine ⟨?_, ?_⟩
    · cases hlist : tokenize_words t with
      | nil => rw [hlist] at ht; simp at ht
      | cons a as => simp [hlist]
    · omega

/-- Witness for `c7_metrics_zero_guard` at the empty text. -/
theorem c7_metrics_zero_guard_witness :
    (tokenize_words "" = [] ∨ tokenize_sentences "" = []) ∧
    (type_token_ratio "" = 0 ∧ flesch_reading_ease "" = 0 ∧
     flesch_kincaid_grade "" = 0 ∧
     (∀ t : String, ¬ (tokenize_words t).isEmpty →
       0 < (tokenize_words t).length ∧
       0 < max 1 (tokenize_sentences t).length)) := by
  refine ⟨Or.inl tokenize_words_empty, ?_⟩
  exact c7_metrics_zero_guard "" (Or.inl tokenize_words_empty)

/-! ## Claim C8 — the syllable heuristic

The claim as frozen says `count_syllables` "returns at least 1 for every
non-empty word".  The source lower-cases the word and then removes every
character outside `a`–`z`; a non-empty word with no letter (the ASCII
word `"1"`, say) strips to nothing and yields 0, refuting the claim.  The
amended claim is stated for ASCII words, on which the embedding's
per-character lower-casing is exactly Python's `str.lower()` (a non-ASCII
character may lower into `a`–`z` — U+212A KELVIN SIGN becomes `k` — and
is outside the model); it restricts the floor of 1 to words containing a
letter and counts the vowel groups on the stripped word.
-/

/-- The amended claim's formulation, following its words: lower-case the
word, remove every character outside `a`–`z`; on the remaining letters
count the positions where a `[aeiouy]` vowel group starts (a vowel not
preceded by a vowel), subtract one for a trailing `e` when more than one
group was counted, floor at 1; a word stripping to nothing yields 0.
It lower-cases per character like `count_syllables`, which matches
Python's `str.lower()` exactly on ASCII strings; the amended claim
quantifies over ASCII words only. -/
def count_syllables_spec (v : String) : Nat :=
  let s := (v.toList.map Char.toLower).filter isLowerAZ
  if s = [] then 0
  else
    let g := ((false :: s.map isVowelY).zip (s.map isVowelY)).countP
      (fun pq => pq.2 && !pq.1)
    max 1 (if s.getLast? = some 'e' ∧ 1 < g then g - 1 else g)

theorem vowelRunLoop_eq_countStarts (l : List Char) (prev : Bool) :
    vowelRunLoop prev l =
      ((prev :: l.map isVowelY).zip (l.map isVowelY)).countP
        (fun pq => pq.2 && !pq.1) := by
  induction l generalizing prev with
  | nil => rfl
  | cons c cs ih =>
      simp only [vowelRunLoop, List.map_cons, List.zip_cons_cons,
        List.countP_cons, ih]
      cases hv : isVowelY c <;> cases prev <;> simp <;> omega

/-- The source's `count_syllables` computes the amended claim's value. -/
theorem count_syllables_eq_spec (v : String) :
    count_syllables v = count_syllables_spec v := by
  unfold count_syllables count_syllables_spec
  dsimp only
  by_cases hnil : (v.toList.map Char.toLower).filter isLowerAZ = []
  · rw [if_pos hnil]
    by_cases h0 : (v.toList.map Char.toLower).isEmpty = true
    · rw [if_pos h0]
    · rw [if_neg h0, if_pos (by rwa [List.isEmpty_iff])]
  · rw [if_neg hnil]
    have h0 : ¬ (v.toList.map Char.toLower).isEmpty = true := by
      rw [List.isEmpty_iff]
      intro hx
      exact hnil (by rw [hx]; rfl)
    have h1 : ¬ ((v.toList.map Char.toLower).filter isLowerAZ).isEmpty
        = true := by
      rw [List.isEmpty_iff]
      exact hnil
    rw [if_neg h0, if_neg h1, vowelRunLoop_eq_countStarts]
    congr 1
    have hbeq : (((v.toList.map Char.toLower).filter isLowerAZ).getLast? ==
        some 'e' &&
        decide (1 < ((false :: ((v.toList.map Char.toLower).filter
          isLowerAZ).map isVowelY).zip (((v.toList.map Char.toLower).filter
          isLowerAZ).map isVowelY)).countP (fun pq => pq.2 && !pq.1)))
        = true ↔
        (((v.toList.map Char.toLower).filter isLowerAZ).getLast? =
          some 'e' ∧
         1 < ((false :: ((v.toList.map Char.toLower).filter isLowerAZ).map
          isVowelY).zip (((v.toList.map Char.toLower).filter isLowerAZ).map
          isVowelY)).countP (fun pq => pq.2 && !pq.1)) := by
      rw [Bool.and_eq_true, beq_iff_eq, decide_eq_true_eq]
    by_cases hc : ((v.toList.map Char.toLower).filter isLowerAZ).getLast? =
        some 'e' ∧
        1 < ((false :: ((v.toList.map Char.toLower).filter isLowerAZ).map
          isVowelY).zip (((v.toList.map Char.toLower).filter isLowerAZ).map
          isVowelY)).countP (fun pq => pq.2 && !pq.1)
    · rw [if_pos (hbeq.mpr hc), if_pos hc]
    · rw [if_neg (fun hx => hc (hbeq.mp hx)), if_neg hc]

/-- `Char.ofNat` at a small code point. -/
theorem char_toNat_ofNat_small (m : Nat) (hm : m < 55296) :
    (Char.ofNat m).toNat = m := by
  have hv : m.isValidChar := Or.inl hm
  simp only [Char.ofNat, dif_pos hv, Char.ofNatAux, Char.toNat, UInt32.toNat]
  rfl

/-- Lower-casing an ASCII letter lands in `a`–`z`. -/
theorem isLowerAZ_toLower {c : Char} (h : isAsciiLetter c = true) :
    isLowerAZ (Char.toLower c) = true := by
  simp only [isAsciiLetter, Bool.or_eq_true, Bool.and_eq_true,
    decide_eq_true_eq] at h
  rcases h with ⟨hA, hZ⟩ | ⟨ha, hz⟩
  · have h65 : (65 : Nat) ≤ c.toNat := by rw [Char.le_def] at hA; exact hA
    have h90 : c.toNat ≤ 90 := by rw [Char.le_def] at hZ; exact hZ
    have hlow : Char.toLower c = Char.ofNat (c.toNat + 32) := by
      simp only [Char.toLower]
      rw [if_pos ⟨h65, h90⟩]
    have htn : (Char.ofNat (c.toNat + 32)).toNat = c.toNat + 32 :=
      char_toNat_ofNat_small (c.toNat + 32) (by omega)
    rw [hlow]
    simp only [isLowerAZ, Bool.and_eq_true, decide_eq_true_eq]
    constructor
    · rw [Char.le_def, UInt32.le_def, BitVec.le_def]
      show 97 ≤ (Char.ofNat (c.toNat + 32)).toNat
      omega
    · rw [Char.le_def, UInt32.le_def, BitVec.le_def]
      show (Char.ofNat (c.toNat + 32)).toNat ≤ 122
      omega
  · have h97 : (97 : Nat) ≤ c.toNat := by rw [Char.le_def] at ha; exact ha
    have hup : Char.toLower c = c := by
      simp only [Char.toLower]
      rw [if_neg (by omega)]
    rw [hup]
    simp only [isLowerAZ, Bool.and_eq_true, decide_eq_true_eq]
    exact ⟨ha, hz⟩

/-- An ASCII character that is not a letter stays outside `a`–`z` after
lower-casing. -/
theorem isLowerAZ_toLower_eq_false {c : Char} (h : isAsciiLetter c = false) :
    isLowerAZ (Char.toLower c) = false := by
  have hup : ¬ (65 ≤ c.toNat ∧ c.toNat ≤ 90) := by
    rintro ⟨ha, hb⟩
    have hA : 'A' ≤ c := by
      rw [Char.le_def, UInt32.le_def, BitVec.le_def]
      show (65 : Nat) ≤ c.toNat
      exact ha
    have hZ : c ≤ 'Z' := by
      rw [Char.le_def, UInt32.le_def, BitVec.le_def]
      show c.toNat ≤ (90 : Nat)
      exact hb
    rw [isAsciiLetter] at h
    simp [hA, hZ] at h
  have hlow : Char.toLower c = c := by
    simp only [Char.toLower]
    rw [if_neg hup]
  rw [hlow]
  apply Bool.eq_false_iff.mpr
  intro ht
  simp only [isLowerAZ, Bool.and_eq_true, decide_eq_true_eq] at ht
  rw [isAsciiLetter] at h
  simp [ht.1, ht.2] at h

/-- **C8, counterexample**: the non-empty word `"1"` has syllable count
0, refuting "at least 1 for every non-empty word". -/
theorem c8_counterexample :
    ("1" : String) ≠ "" ∧ count_syllables "1" = 0 := by
  constructor
  · decide
  · rfl

/-- **C8 (amended)**: restricted to ASCII words — on which the embedded
per-character lower-casing coincides with Python's `str.lower()` —
`count_syllables` equals the amended specification (vowel groups counted
on the lower-cased word with non-letters removed, trailing-`e` collapse,
floor at 1); it returns at least 1 for every ASCII word containing a
letter and 0 for every ASCII word containing none; and
`count_syllables "" = 0`, `2 ≤ count_syllables "language"`. -/
theorem c8_count_syllables_amended (w : String)
    (hascii : ∀ c ∈ w.toList, c.toNat < 128)
    (h : ∃ c ∈ w.toList, isAsciiLetter c = true) :
    1 ≤ count_syllables w ∧
    count_syllables "" = 0 ∧ 2 ≤ count_syllables "language" ∧
    (∀ v : String, (∀ c ∈ v.toList, c.toNat < 128) →
      count_syllables v = count_syllables_spec v) ∧
    (∀ v : String, (∀ c ∈ v.toList, c.toNat < 128) →
      (∀ c ∈ v.toList, isAsciiLetter c = false) →
      count_syllables v = 0) := by
  refine ⟨?_, rfl, by decide, fun v _ => count_syllables_eq_spec v, ?_⟩
  · obtain ⟨c, hc, hlet⟩ := h
    have hmem : Char.toLower c ∈
        (w.toList.map Char.toLower).filter isLowerAZ := by
      rw [List.mem_filter]
      exact ⟨List.mem_map_of_mem _ hc, isLowerAZ_toLower hlet⟩
    have hne : (w.toList.map Char.toLower).filter isLowerAZ ≠ [] := by
      intro hnil
      rw [hnil] at hmem
      exact List.not_mem_nil _ hmem
    rw [count_syllables_eq_spec]
    unfold count_syllables_spec
    rw [if_neg hne]
    exact Nat.le_max_left 1 _
  · intro v _ hno
    have hnil : (v.toList.map Char.toLower).filter isLowerAZ = [] := by
      rw [List.filter_eq_nil_iff]
      intro d hd
      obtain ⟨c, hc, rfl⟩ := List.mem_map.mp hd
      rw [isLowerAZ_toLower_eq_false (hno c hc)]
      simp
    rw [count_syllables_eq_spec]
    unfold count_syllables_spec
    dsimp only
    rw [if_pos hnil]

/-- Witness for `c8_count_syllables_amended` at the ASCII word
`"language"`. -/
theorem c8_count_syllables_amended_witness :
    ((∀ c ∈ ("language" : String).toList, c.toNat < 128) ∧
     (∃ c ∈ ("language" : String).toList, isAsciiLetter c = true)) ∧
    (1 ≤ count_syllables "language" ∧
     count_syllables "" = 0 ∧ 2 ≤ count_syllables "language" ∧
     (∀ v : String, (∀ c ∈ v.toList, c.toNat < 128) →
       count_syllables v = count_syllables_spec v) ∧
     (∀ v : String, (∀ c ∈ v.toList, c.toNat < 128) →
       (∀ c ∈ v.toList, isAsciiLetter c = false) →
       count_syllables v = 0)) := by
  refine ⟨⟨by decide, ⟨'l', by decide⟩⟩, ?_⟩
  exact c8_count_syllables_amended "language" (by decide) ⟨'l', by decide⟩

/-! ## Claim C6 — the broadcast delivery loop

The source removes a failed subscriber from `active_websockets` while the
`for` loop iterates over that same list, so the element that shifts into
the removed one's position is never yielded: a subscriber following a
failed one gets no delivery attempt in that call (when the failed
subscriber is the last one, nothing follows and every subscriber is still
attempted).  The claim "attempts delivery to each subscriber registered
at the start of the call" is therefore false; the remaining parts
(at-most-once, failed-attempt removal) hold.
-/

/-- Unfolding of one failed-delivery step. -/
theorem broadcastAux_step_fail {α : Type} [DecidableEq α] (fails : α → Bool)
    (lst : List α) (i : Nat) (h : i < lst.length)
    (hx : fails (lst.get ⟨i, h⟩) = true) :
    broadcastAux fails lst i =
      ((broadcastAux fails (lst.erase (lst.get ⟨i, h⟩)) (i + 1)).1,
       lst.get ⟨i, h⟩ ::
         (broadcastAux fails (lst.erase (lst.get ⟨i, h⟩)) (i + 1)).2) := by
  rw [broadcastAux]
  simp only [dif_pos h, hx, if_true]

/-- Unfolding of one successful-delivery step. -/
theorem broadcastAux_step_ok {α : Type} [DecidableEq α] (fails : α → Bool)
    (lst : List α) (i : Nat) (h : i < lst.length)
    (hx : fails (lst.get ⟨i, h⟩) = false) :
    broadcastAux fails lst i =
      ((broadcastAux fails lst (i + 1)).1,
       lst.get ⟨i, h⟩ :: (broadcastAux fails lst (i + 1)).2) := by
  rw [broadcastAux]
  simp only [dif_pos h, hx, Bool.false_eq_true, if_false]

/-- Unfolding of the loop's exit. -/
theorem broadcastAux_exit {α : Type} [DecidableEq α] (fails : α → Bool)
    (lst : List α) (i : Nat) (h : ¬ i < lst.length) :
    broadcastAux fails lst i = (lst, []) := by
  rw [broadcastAux]
  simp only [dif_neg h]

/-- Erasing the element at the current index, on a duplicate-free list. -/
theorem erase_get_eq_take_drop {α : Type} [DecidableEq α] (lst : List α)
    (i : Nat) (h : i < lst.length) (hnd : lst.Nodup) :
    lst.erase (lst.get ⟨i, h⟩) = lst.take i ++ lst.drop (i + 1) := by
  rw [← List.eraseIdx_indexOf_eq_erase]
  have hidx : List.indexOf (lst.get ⟨i, h⟩) lst = i := by
    rw [List.get_eq_getElem]
    exact List.indexOf_getElem hnd i h
  rw [hidx, List.eraseIdx_eq_take_drop_succ]

/-- The current element does not reappear later in a duplicate-free
list. -/
theorem get_not_mem_drop_succ {α : Type} (lst : List α) (i : Nat)
    (h : i < lst.length) (hnd : lst.Nodup) :
    lst.get ⟨i, h⟩ ∉ lst.drop (i + 1) := by
  have hsplit := List.take_append_drop (i + 1) lst
  have hnd' : (lst.take (i + 1) ++ lst.drop (i + 1)).Nodup := by
    rw [hsplit]; exact hnd
  rw [List.nodup_append] at hnd'
  apply hnd'.2.2
  have hlen : i < (lst.take (i + 1)).length := by
    rw [List.length_take]
    omega
  have : (lst.take (i + 1)).get ⟨i, hlen⟩ = lst.get ⟨i, h⟩ := by
    simp [List.get_eq_getElem, List.getElem_take]
  rw [← this]
  exact List.get_mem _ _ _

/-- Invariant of the delivery loop from index `i`: attempted subscribers
come from the suffix not yet passed, each at most once; the surviving
registry is a subset of the entry registry; an attempted subscriber whose
delivery failed is gone; a subscriber whose delivery does not fail is
never removed. -/
theorem broadcastAux_spec {α : Type} [DecidableEq α] (fails : α → Bool)
    (lst : List α) (i : Nat) (hnd : lst.Nodup) :
    (broadcastAux fails lst i).2 ⊆ lst.drop i ∧
    (broadcastAux fails lst i).2.Nodup ∧
    (broadcastAux fails lst i).1 ⊆ lst ∧
    (∀ x ∈ (broadcastAux fails lst i).2, fails x = true →
      x ∉ (broadcastAux fails lst i).1) ∧
    (∀ x ∈ lst, fails x = false → x ∈ (broadcastAux fails lst i).1) := by
  induction lst, i using broadcastAux.induct fails with
  | case1 lst i h x hx ih =>
      simp only [x] at hx ih ⊢
      rw [broadcastAux_step_fail fails lst i h hx]
      have hnde : (lst.erase (lst.get ⟨i, h⟩)).Nodup := hnd.erase _
      obtain ⟨ih1, ih2, ih3, ih4, ih5⟩ := ih hnde
      have hsub_erase : (broadcastAux fails
          (lst.erase (lst.get ⟨i, h⟩)) (i + 1)).2 ⊆
          lst.erase (lst.get ⟨i, h⟩) :=
        fun y hy => List.drop_subset _ _ (ih1 hy)
      have herase := erase_get_eq_take_drop lst i h hnd
      have hdropsub : lst.erase (lst.get ⟨i, h⟩) ⊆ lst := List.erase_subset _ _
      refine ⟨?_, ?_, ?_, ?_, ?_⟩
      · intro y hy
        rcases List.mem_cons.mp hy with rfl | hy2
        · rw [List.drop_eq_get_cons h]
          exact List.mem_cons_self _ _
        · have hy3 := ih1 hy2
          have : (lst.erase (lst.get ⟨i, h⟩)).drop (i + 1) ⊆ lst.drop i := by
            rw [herase]
            have hlen : (lst.take i).length = i := by
              rw [List.length_take]; omega
            have : (lst.take i ++ lst.drop (i + 1)).drop (i + 1) =
                (lst.drop (i + 1)).drop 1 := by
              have := @List.drop_append _ (lst.take i)
                (lst.drop (i + 1)) 1
              rw [hlen] at this
              exact this
            rw [this, List.drop_drop]
            intro z hz
            have : lst.drop (i + 1 + 1) = (lst.drop i).drop 2 := by
              rw [List.drop_drop]
            rw [this] at hz
            exact List.drop_subset _ _ hz
          exact this hy3
      · rw [List.nodup_cons]
        refine ⟨?_, ih2⟩
        intro hmem
        exact hnd.not_mem_erase (hsub_erase hmem)
      · exact fun y hy => hdropsub (ih3 hy)
      · intro y hy hyf
        rcases List.mem_cons.mp hy with rfl | hy2
        · intro hmem
          exact hnd.not_mem_erase (ih3 hmem)
        · exact ih4 y hy2 hyf
      · intro y hy hyf
        have hne : y ≠ lst.get ⟨i, h⟩ := by
          intro heq
          rw [heq, hx] at hyf
          exact absurd hyf (by simp)
        exact ih5 y (List.mem_erase_of_ne hne |>.mpr hy) hyf
  | case2 lst i h x hx ih =>
      simp only [x] at hx ih ⊢
      rw [Bool.not_eq_true] at hx
      rw [broadcastAux_step_ok fails lst i h hx]
      obtain ⟨ih1, ih2, ih3, ih4, ih5⟩ := ih hnd
      refine ⟨?_, ?_, ?_, ?_, ?_⟩
      · intro y hy
        rcases List.mem_cons.mp hy with rfl | hy2
        · rw [List.drop_eq_get_cons h]
          exact List.mem_cons_self _ _
        · rw [List.drop_eq_get_cons h]
          exact List.mem_cons_of_mem _ (ih1 hy2)
      · rw [List.nodup_cons]
        refine ⟨?_, ih2⟩
        intro hmem
        exact get_not_mem_drop_succ lst i h hnd (ih1 hmem)
      · exact ih3
      · intro y hy hyf
        rcases List.mem_cons.mp hy with rfl | hy2
        · rw [hx] at hyf
          exact absurd hyf (by simp)
        · exact ih4 y hy2 hyf
      · exact ih5
  | case3 lst i h =>
      rw [broadcastAux_exit fails lst i h]
      exact ⟨by simp, List.nodup_nil, fun y hy => hy, by simp,
        fun y hy _ => hy⟩

/-- When no delivery fails, every subscriber from the current index on is
attempted and the registry survives intact. -/
theorem broadcastAux_all_ok {α : Type} [DecidableEq α] (fails : α → Bool)
    (lst : List α) (i : Nat) (hall : ∀ x ∈ lst, fails x = false) :
    broadcastAux fails lst i = (lst, lst.drop i) := by
  induction lst, i using broadcastAux.induct fails with
  | case1 lst i h x hx ih =>
      simp only [x] at hx
      rw [hall _ (List.get_mem lst i h)] at hx
      exact absurd hx (by simp)
  | case2 lst i h x hx ih =>
      simp only [x] at hx ⊢
      rw [Bool.not_eq_true] at hx
      rw [broadcastAux_step_ok fails lst i h hx, ih hall]
      rw [← List.drop_eq_get_cons h]
  | case3 lst i h =>
      rw [broadcastAux_exit fails lst i h,
        List.drop_eq_nil_of_le (Nat.le_of_not_lt h)]

/-- **C6, counterexample**: with subscribers `[0, 1]` where delivery to
`0` fails, the loop removes `0` and the iterator skips `1`: subscriber
`1`, registered at the start of the call, gets no delivery attempt,
refuting "attempts delivery to each subscriber registered at the start of
the call". -/
theorem c6_counterexample :
    (1 : ℕ) ∈ [0, 1] ∧
    broadcast_update (fun n : ℕ => n == 0) [0, 1] = ([1], [0]) ∧
    (1 : ℕ) ∉ (broadcast_update (fun n : ℕ => n == 0) [0, 1]).2 := by
  refine ⟨by decide, ?_, ?_⟩
  · simp [broadcast_update, broadcastAux]
  · simp [broadcast_update, broadcastAux]

/-- **C6 (amended)**: `broadcast_update` attempts delivery to a subset of
the subscribers registered at the start of the call, at most once per
subscriber; every subscriber whose delivery attempt fails is removed from
the registry by that attempt, and a subscriber whose delivery does not
fail is never removed; when no delivery fails, every registered
subscriber is attempted, in registration order.  The converse does not
hold — a failure at the last subscriber leaves nobody to skip — but a
registered subscriber is not guaranteed an attempt once some delivery
fails, as `c6_counterexample` shows. -/
theorem c6_broadcast_amended {α : Type} [DecidableEq α] (fails : α → Bool)
    (registry : List α) (hnd : registry.Nodup) :
    (broadcast_update fails registry).2 ⊆ registry ∧
    (broadcast_update fails registry).2.Nodup ∧
    (broadcast_update fails registry).1 ⊆ registry ∧
    (∀ x ∈ (broadcast_update fails registry).2, fails x = true →
      x ∉ (broadcast_update fails registry).1) ∧
    (∀ x ∈ registry, fails x = false →
      x ∈ (broadcast_update fails registry).1) ∧
    ((∀ x ∈ registry, fails x = false) →
      (broadcast_update fails registry).1 = registry ∧
      (broadcast_update fails registry).2 = registry) := by
  obtain ⟨h1, h2, h3, h4, h5⟩ := broadcastAux_spec fails registry 0 hnd
  refine ⟨by simpa using h1, h2, h3, h4, h5, ?_⟩
  intro hall
  have heq : broadcast_update fails registry = (registry, registry.drop 0) :=
    broadcastAux_all_ok fails registry 0 hall
  rw [heq]
  exact ⟨rfl, List.drop_zero registry⟩

/-- Witness for `c6_broadcast_amended` at a concrete registry. -/
theorem c6_broadcast_amended_witness :
    ([0, 1, 2] : List ℕ).Nodup ∧
    ((broadcast_update (fun n : ℕ => n == 1) [0, 1, 2]).2 ⊆ [0, 1, 2] ∧
     (broadcast_update (fun n : ℕ => n == 1) [0, 1, 2]).2.Nodup ∧
     (broadcast_update (fun n : ℕ => n == 1) [0, 1, 2]).1 ⊆ [0, 1, 2] ∧
     (∀ x ∈ (broadcast_update (fun n : ℕ => n == 1) [0, 1, 2]).2,
       (fun n : ℕ => n == 1) x = true →
       x ∉ (broadcast_update (fun n : ℕ => n == 1) [0, 1, 2]).1) ∧
     (∀ x ∈ [0, 1, 2], (fun n : ℕ => n == 1) x = false →
       x ∈ (broadcast_update (fun n : ℕ => n == 1) [0, 1, 2]).1) ∧
     ((∀ x ∈ [0, 1, 2], (fun n : ℕ => n == 1) x = false) →
       (broadcast_update (fun n : ℕ => n == 1) [0, 1, 2]).1 = [0, 1, 2] ∧
       (broadcast_update (fun n : ℕ => n == 1) [0, 1, 2]).2 = [0, 1, 2])) := by
  refine ⟨by decide, ?_⟩
  exact c6_broadcast_amended (fun n : ℕ => n == 1) [0, 1, 2] (by decide)

/-! ## Claim C9 — top n-grams

`Counter` iterates in key-insertion order, i.e. first-occurrence order of
the n-grams; `most_common(k)` is a stable descending sort by count cut to
`k`.  The claim's reading — top-10 by frequency, ties in first-occurrence
order — is proved through a characterization of the `Counter` fold and a
stability argument for the sort.
-/

theorem mem_firstDedup {y : String} {l : List String} :
    y ∈ firstDedup l ↔ y ∈ l := by
  induction l with
  | nil => simp [firstDedup]
  | cons x xs ih =>
      simp only [firstDedup, List.mem_cons, List.mem_filter, bne_iff_ne, ih]
      constructor
      · rintro (rfl | ⟨hmem, _⟩)
        · exact Or.inl rfl
        · exact Or.inr hmem
      · rintro (rfl | hmem)
        · exact Or.inl rfl
        · by_cases hxy : y = x
          · exact Or.inl hxy
          · exact Or.inr ⟨hmem, hxy⟩

theorem firstDedup_nodup (l : List String) : (firstDedup l).Nodup := by
  induction l with
  | nil => exact List.nodup_nil
  | cons x xs ih =>
      simp only [firstDedup]
      rw [List.nodup_cons]
      refine ⟨?_, ih.filter _⟩
      intro hmem
      rw [List.mem_filter] at hmem
      simpa using hmem.2

theorem firstDedup_append_singleton (l : List String) (g : String) :
    firstDedup (l ++ [g]) =
      if g ∈ l then firstDedup l else firstDedup l ++ [g] := by
  induction l with
  | nil => simp [firstDedup]
  | cons x xs ih =>
      rw [List.cons_append]
      simp only [firstDedup]
      rw [ih]
      by_cases hg : g ∈ xs
      · rw [if_pos hg, if_pos (List.mem_cons_of_mem _ hg)]
      · rw [if_neg hg]
        by_cases hgx : g = x
        · subst hgx
          rw [if_pos (List.mem_cons_self _ _)]
          congr 1
          rw [List.filter_append]
          simp
        · rw [if_neg (by
            intro hmem
            rcases List.mem_cons.mp hmem with h | h
            · exact hgx h
            · exact hg h)]
          rw [List.filter_append]
          simp [hgx]

/-- Along `firstDedup l`, first occurrences in `l` come in strictly
increasing positions. -/
theorem firstDedup_pairwise_indexOf (l : List String) :
    (firstDedup l).Pairwise
      (fun a b => List.indexOf a l < List.indexOf b l) := by
  induction l with
  | nil => exact List.Pairwise.nil
  | cons x xs ih =>
      simp only [firstDedup]
      rw [List.pairwise_cons]
      constructor
      · intro b hb
        rw [List.mem_filter, bne_iff_ne] at hb
        have hbx : b ≠ x := hb.2
        rw [List.indexOf_cons_self, List.indexOf_cons_ne _ (Ne.symm hbx)]
        exact Nat.succ_pos _
      · have hfil := ih.filter (fun y => y != x)
        refine hfil.imp_of_mem ?_
        intro a b ha hb hab
        rw [List.mem_filter, bne_iff_ne] at ha hb
        rw [List.indexOf_cons_ne _ (Ne.symm ha.2),
          List.indexOf_cons_ne _ (Ne.symm hb.2)]
        exact Nat.succ_lt_succ hab

theorem counterIncr_of_not_mem (g : String) (assoc : List (String × Nat))
    (h : g ∉ assoc.map Prod.fst) : counterIncr g assoc = assoc ++ [(g, 1)] := by
  induction assoc with
  | nil => rfl
  | cons kv rest ih =>
      obtain ⟨k, c⟩ := kv
      simp only [List.map_cons, List.mem_cons] at h
      push_neg at h
      simp only [counterIncr, if_neg (Ne.symm h.1), List.cons_append,
        List.cons.injEq, true_and]
      exact ih h.2

theorem counterIncr_of_mem_nodup (g : String) (assoc : List (String × Nat))
    (hnd : (assoc.map Prod.fst).Nodup) (h : g ∈ assoc.map Prod.fst) :
    counterIncr g assoc =
      assoc.map (fun kv => if kv.1 = g then (kv.1, kv.2 + 1) else kv) := by
  induction assoc with
  | nil => simp at h
  | cons kv rest ih =>
      obtain ⟨k, c⟩ := kv
      rw [List.map_cons] at hnd
      rw [List.nodup_cons] at hnd
      by_cases hkg : k = g
      · subst hkg
        have hid : rest.map
            (fun kv => if kv.1 = k then (kv.1, kv.2 + 1) else kv) = rest := by
          rw [List.map_congr_left (fun kv' hm => ?_), List.map_id']
          rw [if_neg]
          intro heq
          exact hnd.1 (List.mem_map.mpr ⟨kv', hm, heq⟩)
        simp [counterIncr, hid]
      · simp only [counterIncr, if_neg hkg, List.map_cons, if_neg hkg]
        congr 1
        apply ih hnd.2
        rw [List.map_cons] at h
        rcases List.mem_cons.mp h with heq | hmem
        · exact absurd heq.symm hkg
        · exact hmem

/-- The `Counter` fold computes the first-occurrence-ordered counts. -/
theorem counterOf_eq_spec (l : List String) : counterOf l = counterSpec l := by
  induction l using List.reverseRecOn with
  | nil => rfl
  | append_singleton l g ih =>
      have hstep : counterOf (l ++ [g]) = counterIncr g (counterOf l) := by
        simp [counterOf, List.foldl_append]
      rw [hstep, ih]
      have hkeys : (counterSpec l).map Prod.fst = firstDedup l := by
        unfold counterSpec
        rw [List.map_map,
          show (Prod.fst ∘ fun g => (g, List.count g l)) =
            fun g : String => g from rfl, List.map_id']
      by_cases hg : g ∈ l
      · rw [counterIncr_of_mem_nodup g _
          (by rw [hkeys]; exact firstDedup_nodup l)
          (by rw [hkeys]; exact mem_firstDedup.mpr hg)]
        unfold counterSpec
        rw [firstDedup_append_singleton, if_pos hg, List.map_map]
        apply List.map_congr_left
        intro k hk
        simp only [Function.comp]
        by_cases hkg : k = g
        · subst hkg
          rw [if_pos rfl, List.count_append]
          simp [List.count_cons]
        · rw [if_neg hkg, List.count_append]
          have : List.count k [g] = 0 := by
            simp [List.count_cons, Ne.symm hkg]
          rw [this, Nat.add_zero]
      · rw [counterIncr_of_not_mem g _
          (by rw [hkeys]; intro hmem; exact hg (mem_firstDedup.mp hmem))]
        unfold counterSpec
        rw [firstDedup_append_singleton, if_neg hg, List.map_append]
        congr 1
        · apply List.map_congr_left
          intro k hk
          have hkg : k ≠ g := by
            intro heq
            exact hg (heq ▸ mem_firstDedup.mp hk)
          rw [List.count_append]
          have : List.count k [g] = 0 := by
            simp [List.count_cons, Ne.symm hkg]
          rw [this, Nat.add_zero]
        · simp only [List.map_cons, List.map_nil, List.cons.injEq, and_true]
          rw [List.count_append]
          have h0 : List.count g l = 0 := List.count_eq_zero.mpr hg
          simp [h0, List.count_cons]

theorem insertBy_perm {α : Type} (le : α → α → Bool) (x : α) (l : List α) :
    (insertBy le x l).Perm (x :: l) := by
  induction l with
  | nil => exact List.Perm.refl _
  | cons y ys ih =>
      simp only [insertBy]
      by_cases h : le x y
      · rw [if_pos h]
      · rw [if_neg h]
        exact (ih.cons y).trans (List.Perm.swap x y ys)

theorem sortBy_perm {α : Type} (le : α → α → Bool) (l : List α) :
    (sortBy le l).Perm l := by
  induction l with
  | nil => exact List.Perm.refl _
  | cons x xs ih =>
      simp only [sortBy]
      exact (insertBy_perm le x (sortBy le xs)).trans (ih.cons x)

/-- Inserting an element that precedes (in `q`) everything in an already
sorted list keeps the list sorted by descending key with `q` breaking
ties. -/
theorem insertBy_pairwise_key {α : Type} (key : α → Nat) (q : α → α → Prop)
    (x : α) (l : List α)
    (hl : l.Pairwise (fun a b => key b < key a ∨ (key a = key b ∧ q a b)))
    (hq : ∀ z ∈ l, q x z) :
    (insertBy (fun a b => decide (key b ≤ key a)) x l).Pairwise
      (fun a b => key b < key a ∨ (key a = key b ∧ q a b)) := by
  induction l with
  | nil => simp [insertBy]
  | cons y ys ih =>
      simp only [insertBy]
      by_cases hle : key y ≤ key x
      · rw [if_pos (by simpa using hle)]
        rw [List.pairwise_cons]
        refine ⟨?_, hl⟩
        intro b hb
        rcases List.mem_cons.mp hb with rfl | hbmem
        · rcases Nat.lt_or_eq_of_le hle with h1 | h1
          · exact Or.inl h1
          · exact Or.inr ⟨h1.symm, hq b (List.mem_cons_self _ _)⟩
        · have hyb := (List.pairwise_cons.mp hl).1 b hbmem
          rcases hyb with hlt | ⟨heq, _⟩
          · exact Or.inl (Nat.lt_of_lt_of_le hlt hle)
          · rcases Nat.lt_or_eq_of_le hle with h1 | h1
            · exact Or.inl (heq ▸ h1)
            · refine Or.inr ⟨?_, hq b (List.mem_cons_of_mem _ hbmem)⟩
              omega
      · rw [if_neg (by simpa using hle)]
        have hxy : key x < key y := Nat.lt_of_not_le hle
        rw [List.pairwise_cons]
        constructor
        · intro b hb
          have hmem : b ∈ x :: ys :=
            (insertBy_perm _ x ys).mem_iff.mp hb
          rcases List.mem_cons.mp hmem with rfl | hbmem
          · exact Or.inl hxy
          · exact (List.pairwise_cons.mp hl).1 b hbmem
        · exact ih (List.pairwise_cons.mp hl).2
            (fun z hz => hq z (List.mem_cons_of_mem _ hz))

/-- A stable descending sort by `key` of a list whose ties already stand
in `q`-order is sorted by the lexicographic (key desc, `q`) order. -/
theorem sortBy_pairwise_key {α : Type} (key : α → Nat) (q : α → α → Prop)
    (l : List α) (hq : l.Pairwise q) :
    (sortBy (fun a b => decide (key b ≤ key a)) l).Pairwise
      (fun a b => key b < key a ∨ (key a = key b ∧ q a b)) := by
  induction l with
  | nil => exact List.Pairwise.nil
  | cons x xs ih =>
      simp only [sortBy]
      apply insertBy_pairwise_key
      · exact ih (List.pairwise_cons.mp hq).2
      · intro z hz
        exact (List.pairwise_cons.mp hq).1 z
          ((sortBy_perm _ xs).mem_iff.mp hz)

theorem counterSpec_keys (l : List String) :
    (counterSpec l).map Prod.fst = firstDedup l := by
  unfold counterSpec
  rw [List.map_map,
    show (Prod.fst ∘ fun g => (g, List.count g l)) =
      fun g : String => g from rfl, List.map_id']

/-- The counts list is pairwise-ordered by first occurrence of its keys. -/
theorem counterSpec_pairwise (l : List String) :
    (counterSpec l).Pairwise
      (fun a b => List.indexOf a.1 l < List.indexOf b.1 l) := by
  unfold counterSpec
  rw [List.pairwise_map]
  exact firstDedup_pairwise_indexOf l

/-- **C9**: `analyze_text` carries the top-10 bigram and trigram lists;
`top_ngrams` is empty when the text has fewer than `n` words, and
otherwise returns min(10, #distinct n-grams) entries — distinct n-grams
of the text paired with their exact frequencies, ordered by descending
frequency with ties in first-occurrence order, and every n-gram left out
is no more frequent than any returned entry. -/
theorem c9_top_ngrams (text : String) (n : Nat) :
    (analyze_text text).top_bigrams = top_ngrams text 2 10 ∧
    (analyze_text text).top_trigrams = top_ngrams text 3 10 ∧
    ((tokenize_words text).length < n → top_ngrams text n 10 = []) ∧
    (¬ (tokenize_words text).length < n →
      (top_ngrams text n 10).length =
        min 10 (firstDedup (ngramsOf (tokenize_words text) n)).length ∧
      ((top_ngrams text n 10).map Prod.fst).Nodup ∧
      (∀ e ∈ top_ngrams text n 10,
        e.1 ∈ ngramsOf (tokenize_words text) n ∧
        e.2 = (ngramsOf (tokenize_words text) n).count e.1) ∧
      (top_ngrams text n 10).Pairwise (fun a b => b.2 < a.2 ∨
        (a.2 = b.2 ∧
         List.indexOf a.1 (ngramsOf (tokenize_words text) n) <
           List.indexOf b.1 (ngramsOf (tokenize_words text) n))) ∧
      (∀ g ∈ ngramsOf (tokenize_words text) n,
        g ∉ (top_ngrams text n 10).map Prod.fst →
        ∀ e ∈ top_ngrams text n 10,
          (ngramsOf (tokenize_words text) n).count g ≤ e.2)) := by
  refine ⟨rfl, rfl, ?_, ?_⟩
  · intro h
    unfold top_ngrams
    rw [if_pos h]
  · intro h
    have hres : top_ngrams text n 10 =
        (sortBy (fun a b => decide (b.2 ≤ a.2))
          (counterSpec (ngramsOf (tokenize_words text) n))).take 10 := by
      unfold top_ngrams most_common
      rw [if_neg h, counterOf_eq_spec]
    have hperm := sortBy_perm (fun a b : String × Nat => decide (b.2 ≤ a.2))
      (counterSpec (ngramsOf (tokenize_words text) n))
    have hsorted := sortBy_pairwise_key (Prod.snd)
      (fun a b : String × Nat =>
        List.indexOf a.1 (ngramsOf (tokenize_words text) n) <
          List.indexOf b.1 (ngramsOf (tokenize_words text) n))
      (counterSpec (ngramsOf (tokenize_words text) n))
      (counterSpec_pairwise _)
    refine ⟨?_, ?_, ?_, ?_, ?_⟩
    · rw [hres, List.length_take, hperm.length_eq]
      unfold counterSpec
      rw [List.length_map]
    · rw [hres, List.map_take]
      apply List.Nodup.sublist (List.take_sublist _ _)
      apply ((hperm.map Prod.fst).symm.nodup)
      rw [counterSpec_keys]
      exact firstDedup_nodup _
    · intro e he
      rw [hres] at he
      have he2 : e ∈ counterSpec (ngramsOf (tokenize_words text) n) :=
        hperm.subset (List.take_sublist _ _ |>.subset he)
      unfold counterSpec at he2
      obtain ⟨g, hg, rfl⟩ := List.mem_map.mp he2
      exact ⟨mem_firstDedup.mp hg, rfl⟩
    · rw [hres]
      exact hsorted.sublist (List.take_sublist _ _)
    · intro g hg hgout e he
      have hpair : (g, (ngramsOf (tokenize_words text) n).count g) ∈
          counterSpec (ngramsOf (tokenize_words text) n) := by
        unfold counterSpec
        exact List.mem_map.mpr ⟨g, mem_firstDedup.mpr hg, rfl⟩
      have hpair2 : (g, (ngramsOf (tokenize_words text) n).count g) ∈
          sortBy (fun a b : String × Nat => decide (b.2 ≤ a.2))
            (counterSpec (ngramsOf (tokenize_words text) n)) :=
        hperm.symm.subset hpair
      have hnotin : (g, (ngramsOf (tokenize_words text) n).count g) ∉
          top_ngrams text n 10 := by
        intro hmem
        exact hgout (List.mem_map.mpr ⟨_, hmem, rfl⟩)
      have hsplit := List.take_append_drop 10
        (sortBy (fun a b : String × Nat => decide (b.2 ≤ a.2))
          (counterSpec (ngramsOf (tokenize_words text) n)))
      have hindrop : (g, (ngramsOf (tokenize_words text) n).count g) ∈
          (sortBy (fun a b : String × Nat => decide (b.2 ≤ a.2))
            (counterSpec (ngramsOf (tokenize_words text) n))).drop 10 := by
        rcases List.mem_append.mp (hsplit ▸ hpair2) with hin | hin
        · exact absurd (hres ▸ hin) hnotin
        · exact hin
      have hpw := hsorted
      rw [← hsplit, List.pairwise_append] at hpw
      have := hpw.2.2 e (hres ▸ he) _ hindrop
      rcases this with hlt | ⟨heq, _⟩
      · exact Nat.le_of_lt hlt
      · exact Nat.le_of_eq heq.symm

/-- Witness for `c9_top_ngrams`: the empty text has fewer than one word,
so the 1-gram list is empty; against `n = 0` the guard does not fire and
the length characterization holds. -/
theorem c9_top_ngrams_witness :
    (tokenize_words "").length < 1 ∧
    top_ngrams "" 1 10 = [] ∧
    ¬ (tokenize_words "").length < 0 ∧
    (top_ngrams "" 0 10).length =
      min 10 (firstDedup (ngramsOf (tokenize_words "") 0)).length := by
  have h1 : (tokenize_words "").length < 1 := by
    rw [tokenize_words_empty]
    decide
  have h0 : ¬ (tokenize_words "").length < 0 := by omega
  exact ⟨h1, (c9_top_ngrams "" 1).2.2.1 h1, h0,
    ((c9_top_ngrams "" 0).2.2.2 h0).1⟩

end WarpEngine
